import Mathlib

/-!
Verification development for the medical-guide OCR extractor (`src/app.py`).

The heart of the program is the pure function `extract_information`, which
takes the OCR text blob, normalizes it, and fills a five-key record by trying
ordered lists of regular expressions (Python `re.search` with `IGNORECASE`,
and additionally `DOTALL` for the date patterns).  We embed the text as
`List Char`, the record as an association list `List (String × List Char)`,
and the regex dialect actually used by the source as a small backtracking
engine (`mrun`) that enumerates matches in Python's priority order
(leftmost start, ordered alternation, greedy/lazy quantifiers) and carries
the single capture group each source pattern has.
-/

/-- Case folding used to model `re.IGNORECASE`: ASCII letters plus the
accented letters that occur in the source patterns. -/
def lcx (c : Char) : Char :=
  if 'A' ≤ c && c ≤ 'Z' then Char.ofNat (c.toNat + 32) else
  match c with
  | 'À' => 'à' | 'Á' => 'á' | 'Â' => 'â' | 'Ã' => 'ã' | 'Ç' => 'ç'
  | 'É' => 'é' | 'Ê' => 'ê' | 'Í' => 'í' | 'Ó' => 'ó' | 'Ô' => 'ô'
  | 'Õ' => 'õ' | 'Ú' => 'ú'
  | c => c

/-- Python `\s` (ASCII whitespace, which is what the source texts contain). -/
def pySpace (c : Char) : Bool :=
  c == ' ' || c == '\t' || c == '\n' || c == '\r' || c == '\x0b' || c == '\x0c'

/-- Python `\d` (ASCII decimal digits). -/
def isDig (c : Char) : Bool := c.isDigit

/-- Accented lowercase letters appearing in the source character classes. -/
def accLower : List Char := ['à', 'á', 'â', 'ã', 'ç', 'é', 'ê', 'í', 'ó', 'ô', 'õ', 'ú']

/-- Letters matched by the class `[A-ZÀÁÂÃÇÉÊÍÓÔÕÚ]` under `IGNORECASE`
(equivalently by `[A-Za-zàáâãçéêíóôõúÀÁÂÃÇÉÊÍÓÔÕÚ]`). -/
def isLetterCls (c : Char) : Bool :=
  ('a' ≤ lcx c && lcx c ≤ 'z') || accLower.contains (lcx c)

/-- Python `\w` membership used by `\b`, over the Latin alphabets a text of
this program can contain: ASCII word characters, the Latin-1 letters
(including the ordinal indicators `ª`/`º` and `µ`, which are Unicode
letters, and excluding `×`/`÷`), and Latin Extended-A. -/
def isWordC (c : Char) : Bool :=
  c.isAlphanum || c == '_' || c == 'ª' || c == 'µ' || c == 'º' ||
  (0xC0 ≤ c.toNat && c.toNat ≤ 0xFF && !(c.toNat == 0xD7) && !(c.toNat == 0xF7)) ||
  (0x100 ≤ c.toNat && c.toNat ≤ 0x17F)

/-- State of the matcher: remaining input, previously consumed character
(needed for `\b`), and the content of the capture group, if set. -/
structure MSt where
  rest : List Char
  prev : Option Char
  cap : Option (List Char)
deriving DecidableEq, Repr

/-- Regex abstract syntax, covering exactly the constructs used by the
patterns of `extract_information`: character classes (case folding baked
into the predicate), concatenation, ordered alternation, repetition of a
character class (`crep`, closed form), general repetition (`rep`, used only
for the non-class bodies `(?:\.\d{3})*` and `(?:da\s+)?`), the single
capture group, lookahead, word boundary and end of input. -/
inductive RE : Type where
  | eps
  | cls (p : Char → Bool)
  | cat (a b : RE)
  | alt (a b : RE)
  | crep (p : Char → Bool) (lo : Nat) (hi : Option Nat) (lz : Bool)
  | rep (r : RE) (lo : Nat) (hi : Option Nat) (lz : Bool)
  | grp (r : RE)
  | look (r : RE)
  | wordB
  | eos

/-- Length of the maximal prefix satisfying `p`. -/
def countLead (p : Char → Bool) : List Char → Nat
  | [] => 0
  | c :: r => if p c then countLead p r + 1 else 0

/-- Advance a state by `k` consumed characters. -/
def stAdvance (st : MSt) (k : Nat) : MSt :=
  if k = 0 then st else
  { rest := st.rest.drop k, prev := (st.rest.take k).getLast?, cap := st.cap }

/-- The counts `t, t-1, …, lo` (empty when `t < lo`). -/
def downFrom (lo : Nat) : Nat → List Nat
  | 0 => if lo = 0 then [0] else []
  | t + 1 => if t + 1 < lo then [] else (t + 1) :: downFrom lo t

/-- Candidate repetition counts for a character-class quantifier whose
maximal possible count is `cnt`: greedy tries the largest first, lazy the
smallest first, exactly as Python's backtracking does. -/
def crepKs (lo : Nat) (hi : Option Nat) (lz : Bool) (cnt : Nat) : List Nat :=
  let top := match hi with | none => cnt | some h => min h cnt
  if lz then (List.range (top + 1 - lo)).map (fun i => lo + i)
  else downFrom lo top

/-- Python `\b`: the two sides disagree on word-character membership. -/
def boundaryOk (prev next : Option Char) : Bool :=
  (match prev with | none => false | some c => isWordC c) !=
  (match next with | none => false | some c => isWordC c)

/-- Iteration of a general repetition whose body matcher is `body`:
mandatory iterations first, then, between a further iteration and
stopping, the greedy order tries the iteration first and the lazy order
stopping first, exactly as Python backtracks.  `fuel` bounds the number of
unfoldings; the source patterns only use repetition bodies that consume at
least one character, so any fuel beyond the input length is enough. -/
def repRun (body : MSt → List MSt) : Nat → Nat → Option Nat → Bool → MSt → List MSt
  | 0, _, _, _, _ => []
  | f + 1, lo, hi, lz, st =>
    match lo with
    | l + 1 => (body st).flatMap (repRun body f l (hi.map (· - 1)) lz)
    | 0 =>
      match hi with
      | some 0 => [st]
      | _ =>
        let more := (body st).flatMap (repRun body f 0 (hi.map (· - 1)) lz)
        if lz then st :: more else more ++ [st]

/-- Backtracking matcher: all ways the regex can match a prefix of
`st.rest`, as resulting states in Python's backtracking priority order. -/
def mrun (fuel : Nat) : RE → MSt → List MSt
  | .eps, st => [st]
  | .cls p, st =>
    match st.rest with
    | [] => []
    | c :: r => if p c then [⟨r, some c, st.cap⟩] else []
  | .cat a b, st => (mrun fuel a st).flatMap (mrun fuel b)
  | .alt a b, st => mrun fuel a st ++ mrun fuel b st
  | .crep p lo hi lz, st => (crepKs lo hi lz (countLead p st.rest)).map (stAdvance st)
  | .rep r lo hi lz, st => repRun (mrun fuel r) fuel lo hi lz st
  | .grp r, st =>
    (mrun fuel r st).map
      (fun st2 => { st2 with cap := some (st.rest.take (st.rest.length - st2.rest.length)) })
  | .look r, st => if (mrun fuel r st).isEmpty then [] else [st]
  | .wordB, st => if boundaryOk st.prev st.rest.head? then [st] else []
  | .eos, st => if st.rest.isEmpty then [st] else []

/-- Python `re.search`: try each start position from the left; at a given
start, take the backtracking engine's first match. -/
def searchFrom (fuel : Nat) (re : RE) : List Char → Option Char → Option MSt
  | [], pr => (mrun fuel re ⟨[], pr, none⟩).head?
  | c :: r, pr =>
    match (mrun fuel re ⟨c :: r, pr, none⟩).head? with
    | some st => some st
    | none => searchFrom fuel re r (some c)

/-- Extra fuel margin for general repetitions (far more than the nesting
any source pattern can produce). -/
def FUEL : Nat := 1000

/-- `re.search(pattern, s, flags).group(1)`: the capture of the leftmost
match, or `none` when the pattern does not match.  Every pattern in the
source has its single group on the mandatory path, so a successful search
always carries a capture. -/
def reSearchG1 (re : RE) (s : List Char) : Option (List Char) :=
  match searchFrom (s.length + FUEL) re s none with
  | some st => st.cap
  | none => none

/-! ### Transcription of the source regex patterns

Each definition below is commented with the exact Python pattern it embeds.
All pattern lists are searched with `re.IGNORECASE`; the date list also has
`re.DOTALL` (its `.` matches any character; elsewhere `.` excludes `'\n'`).
-/

/-- A single literal character under `IGNORECASE`. -/
def ciChar (c : Char) : RE := .cls (fun x => lcx x == lcx c)

/-- A literal string under `IGNORECASE`. -/
def ciStr (s : String) : RE := (s.data.map ciChar).foldr .cat .eps

/-- Concatenation of a list of regexes. -/
def reSeq (l : List RE) : RE := l.foldr .cat .eps

/-- A regex that never matches (used to close an alternation fold). -/
def reFail : RE := .cls (fun _ => false)

/-- Ordered alternation of a list of regexes. -/
def reAlts (l : List RE) : RE := l.foldr .alt reFail

/-- Class `[:\s]`. -/
def isColonSp (c : Char) : Bool := c == ':' || pySpace c

/-- Class `[/.\-]` (the date separators). -/
def isSepCh (c : Char) : Bool := c == '/' || c == '.' || c == '-'

/-- Class `[-–—]` (hyphen and typographic dashes). -/
def isDashCh (c : Char) : Bool := c == '-' || c == '–' || c == '—'

/-- Class `[\d\s.\-]`. -/
def isNumCh (c : Char) : Bool := isDig c || pySpace c || c == '.' || c == '-'

/-- Class `[^\n\d]`. -/
def isNotNlDigit (c : Char) : Bool := !(c == '\n' || isDig c)

/-- Class `[A-Za-zàáâãçéêíóôõúÀÁÂÃÇÉÊÍÓÔÕÚ\s]` (under `IGNORECASE`). -/
def isNameBody (c : Char) : Bool := isLetterCls c || pySpace c

/-- Class `[Nn]` (and the letter `n` under `IGNORECASE`). -/
def isNCi (c : Char) : Bool := lcx c == 'n'

/-- Class `[°º]`. -/
def isDegree (c : Char) : Bool := c == '°' || c == 'º'

/-- Class `[úuº°]` under `IGNORECASE`. -/
def isUDeg (c : Char) : Bool := lcx c == 'ú' || lcx c == 'u' || c == 'º' || c == '°'

/-- Class `[úu]` under `IGNORECASE`. -/
def isUu (c : Char) : Bool := lcx c == 'ú' || lcx c == 'u'

/-- Class `[n°º]` under `IGNORECASE`. -/
def isNdeg (c : Char) : Bool := lcx c == 'n' || c == '°' || c == 'º'

/-- Class `[çc]` under `IGNORECASE`. -/
def isCcedCi (c : Char) : Bool := lcx c == 'ç' || lcx c == 'c'

/-- Class `[ãa]` under `IGNORECASE`. -/
def isAtilCi (c : Char) : Bool := lcx c == 'ã' || lcx c == 'a'

/-- Class `[áa]` under `IGNORECASE`. -/
def isAacuCi (c : Char) : Bool := lcx c == 'á' || lcx c == 'a'

/-- Literal `.` (escaped dot). -/
def isDotCh (c : Char) : Bool := c == '.'

/-- Literal `,`. -/
def isComma (c : Char) : Bool := c == ','

/-- Literal `$` (the currency sign `\$`, not the anchor). -/
def isDollar (c : Char) : Bool := c == '$'

/-- Literal `R` under `IGNORECASE`. -/
def isRCi (c : Char) : Bool := lcx c == 'r'

/-- Literal newline inside a pattern (`\n`). -/
def isNlCh (c : Char) : Bool := c == '\n'

/-- The `.` metacharacter without `DOTALL`. -/
def isAnyNotNl (c : Char) : Bool := !(c == '\n')

/-- The `.` metacharacter with `DOTALL`. -/
def isAnyCh (_ : Char) : Bool := true

/-- `\s*` -/
def wsS : RE := .crep pySpace 0 none false

/-- `\s+` -/
def wsP : RE := .crep pySpace 1 none false

/-- `[:\s]*` -/
def colS : RE := .crep isColonSp 0 none false

/-- `[:\s]+` -/
def colP : RE := .crep isColonSp 1 none false

/-- `\d+` -/
def digP : RE := .crep isDig 1 none false

/-- `\d{n}` -/
def digN (n : Nat) : RE := .crep isDig n (some n) false

/-- `.*?` without `DOTALL`. -/
def dotLazy : RE := .crep isAnyNotNl 0 none true

/-- `.*?` with `DOTALL`. -/
def dotLazyAll : RE := .crep isAnyCh 0 none true

/-- Pattern `1\s*[-–—]\s*Registro\s+ANS[:\s]*(\d+)`. -/
def ansP1 : RE := reSeq [ciChar '1', wsS, .cls isDashCh, wsS, ciStr "Registro", wsP,
  ciStr "ANS", colS, .grp digP]

/-- Pattern `Registro\s+ANS[:\s]*(\d+)`. -/
def ansP2 : RE := reSeq [ciStr "Registro", wsP, ciStr "ANS", colS, .grp digP]

/-- Pattern `ANS[:\s]*[Nn]?[°º]?\s*(\d{5,})`. -/
def ansP3 : RE := reSeq [ciStr "ANS", colS, .crep isNCi 0 (some 1) false,
  .crep isDegree 0 (some 1) false, wsS, .grp (.crep isDig 5 none false)]

/-- Pattern `(?:Operadora|Registro).*?ANS[:\s]*(\d{5,})`. -/
def ansP4 : RE := reSeq [.alt (ciStr "Operadora") (ciStr "Registro"), dotLazy,
  ciStr "ANS", colS, .grp (.crep isDig 5 none false)]

/-- The list `ans_patterns` of the source. -/
def ans_patterns : List RE := [ansP1, ansP2, ansP3, ansP4]

/-- Group `(\d+[\d\s.\-]*\d+)` shared by the first three guide patterns. -/
def guiaGrpA : RE := .grp (reSeq [digP, .crep isNumCh 0 none false, digP])

/-- Group `(\d[\d\s.\-]{5,})` shared by the last two guide patterns. -/
def guiaGrpB : RE := .grp (reSeq [.cls isDig, .crep isNumCh 5 none false])

/-- Fragment `N[úu]mero` of the guide patterns. -/
def nUmero : RE := reSeq [ciChar 'N', .cls isUu, ciStr "mero"]

/-- Pattern `2\s*[-–—]\s*N[úu]mero\s+GUIA[:\s]*(\d+[\d\s.\-]*\d+)`. -/
def guiaP1 : RE := reSeq [ciChar '2', wsS, .cls isDashCh, wsS, nUmero, wsP,
  ciStr "GUIA", colS, guiaGrpA]

/-- Pattern `N[úu]mero\s+GUIA[:\s]*(\d+[\d\s.\-]*\d+)`. -/
def guiaP2 : RE := reSeq [nUmero, wsP, ciStr "GUIA", colS, guiaGrpA]

/-- Pattern `GUIA[:\s]*[Nn]?[°º]?\s*(\d+[\d\s.\-]*\d+)`. -/
def guiaP3 : RE := reSeq [ciStr "GUIA", colS, .crep isNCi 0 (some 1) false,
  .crep isDegree 0 (some 1) false, wsS, guiaGrpA]

/-- Pattern `(?:n[úuº°]?\.?\s*(?:da\s+)?guia|guia\s+n[úuº°]?\.?)[:\s]*(\d[\d\s.\-]{5,})`. -/
def guiaP4 : RE := reSeq [
  .alt
    (reSeq [ciChar 'n', .crep isUDeg 0 (some 1) false, .crep isDotCh 0 (some 1) false,
      wsS, .rep (reSeq [ciChar 'd', ciChar 'a', wsP]) 0 (some 1) false, ciStr "guia"])
    (reSeq [ciStr "guia", wsP, ciChar 'n', .crep isUDeg 0 (some 1) false,
      .crep isDotCh 0 (some 1) false]),
  colS, guiaGrpB]

/-- Pattern `guia[:\s]*[n°º]?[:\s]*(\d[\d\s.\-]{5,})`. -/
def guiaP5 : RE := reSeq [ciStr "guia", colS, .crep isNdeg 0 (some 1) false, colS, guiaGrpB]

/-- The list `guia_patterns` of the source. -/
def guia_patterns : List RE := [guiaP1, guiaP2, guiaP3, guiaP4, guiaP5]

/-- The date group `\d{2}[/.\-]\d{2}[/.\-]\d{4}` shared by all date patterns. -/
def dateCore : RE := reSeq [digN 2, .cls isSepCh, digN 2, .cls isSepCh, digN 4]

/-- Fragment `Autoriza[çc][ãa]o`. -/
def autorizacao : RE := reSeq [ciStr "Autoriza", .cls isCcedCi, .cls isAtilCi, ciChar 'o']

/-- Pattern `4\s*[-–—]\s*Data\s+de\s+Autoriza[çc][ãa]o[:\s]*(D)` with `D` the date group. -/
def dataP1 : RE := reSeq [ciChar '4', wsS, .cls isDashCh, wsS, ciStr "Data", wsP,
  ciStr "de", wsP, autorizacao, colS, .grp dateCore]

/-- Pattern `Data\s+de\s+Autoriza[çc][ãa]o[:\s]*(D)`. -/
def dataP2 : RE := reSeq [ciStr "Data", wsP, ciStr "de", wsP, autorizacao, colS, .grp dateCore]

/-- Pattern `Autoriza[çc][ãa]o[:\s]*(D)`. -/
def dataP3 : RE := reSeq [autorizacao, colS, .grp dateCore]

/-- Pattern `data.*?autoriza[çc][ãa]o.*?[:\s]?(D)` (with `DOTALL`). -/
def dataP4 : RE := reSeq [ciStr "data", dotLazyAll, autorizacao, dotLazyAll,
  .crep isColonSp 0 (some 1) false, .grp dateCore]

/-- Pattern `(?:em|realizado.*?em)[:\s]+(D)` (with `DOTALL`). -/
def dataP5 : RE := reSeq [.alt (ciStr "em") (reSeq [ciStr "realizado", dotLazyAll, ciStr "em"]),
  colP, .grp dateCore]

/-- Pattern `\b(D)\b`. -/
def dataP6 : RE := reSeq [.wordB, .grp dateCore, .wordB]

/-- The list `data_patterns` of the source. -/
def data_patterns : List RE := [dataP1, dataP2, dataP3, dataP4, dataP5, dataP6]

/-- Group capture of the name patterns 1:
`([A-ZÀÁÂÃÇÉÊÍÓÔÕÚ][A-Za-zàáâãçéêíóôõúÀÁÂÃÇÉÊÍÓÔÕÚ\s]{3,100}?)`. -/
def nomeGrp1 : RE := .grp (reSeq [.cls isLetterCls, .crep isNameBody 3 (some 100) true])

/-- Group capture of name patterns 3 and 4 (`{10,80}?` window). -/
def nomeGrp3 : RE := .grp (reSeq [.cls isLetterCls, .crep isNameBody 10 (some 80) true])

/-- Group capture of name pattern 2: `([A-ZÀÁÂÃÇÉÊÍÓÔÕÚ][^\n\d]{10,80}?)`. -/
def nomeGrp2 : RE := .grp (reSeq [.cls isLetterCls, .crep isNotNlDigit 10 (some 80) true])

/-- Pattern
`10\s*[-–—]\s*Nome[:\s]+(G1)(?:\s+\d{2}[/.\-]\d{2}|\s+CPF|\s+RG|\s+Carteira|\s+Cart\.|\s+\n|$)`. -/
def nomeP1 : RE := reSeq [ciChar '1', ciChar '0', wsS, .cls isDashCh, wsS, ciStr "Nome",
  colP, nomeGrp1,
  reAlts [reSeq [wsP, digN 2, .cls isSepCh, digN 2], reSeq [wsP, ciStr "CPF"],
    reSeq [wsP, ciStr "RG"], reSeq [wsP, ciStr "Carteira"],
    reSeq [wsP, ciStr "Cart", .cls isDotCh], reSeq [wsP, .cls isNlCh], .eos]]

/-- Pattern `10\s*[-–—]\s*Nome[:\s]+(G2)(?=\s*\d|\s*CPF|\s*RG|\n|$)`. -/
def nomeP2 : RE := reSeq [ciChar '1', ciChar '0', wsS, .cls isDashCh, wsS, ciStr "Nome",
  colP, nomeGrp2,
  .look (reAlts [reSeq [wsS, .cls isDig], reSeq [wsS, ciStr "CPF"],
    reSeq [wsS, ciStr "RG"], .cls isNlCh, .eos])]

/-- Pattern `Nome[:\s]+(G3)(?:\s+CPF|\s+RG|\s+\d{2}[/.\-]|\s+Carteira|\n)`. -/
def nomeP3 : RE := reSeq [ciStr "Nome", colP, nomeGrp3,
  reAlts [reSeq [wsP, ciStr "CPF"], reSeq [wsP, ciStr "RG"],
    reSeq [wsP, digN 2, .cls isSepCh], reSeq [wsP, ciStr "Carteira"], .cls isNlCh]]

/-- Pattern `(?:Benefici[áa]rio|Paciente)[:\s]+(G3)(?:\s+CPF|\s+RG|\s+\d{2}[/.\-]|\n)`. -/
def nomeP4 : RE := reSeq [
  .alt (reSeq [ciStr "Benefici", .cls isAacuCi, ciStr "rio"]) (ciStr "Paciente"),
  colP, nomeGrp3,
  reAlts [reSeq [wsP, ciStr "CPF"], reSeq [wsP, ciStr "RG"],
    reSeq [wsP, digN 2, .cls isSepCh], .cls isNlCh]]

/-- The list `nome_patterns` of the source. -/
def nome_patterns : List RE := [nomeP1, nomeP2, nomeP3, nomeP4]

/-- Currency group `(\d{1,3}(?:\.\d{3})*,\d{2})`. -/
def valGrp : RE := .grp (reSeq [.crep isDig 1 (some 3) false,
  .rep (reSeq [.cls isDotCh, digN 3]) 0 none false, .cls isComma, digN 2])

/-- Pattern `(?:valor|total|consulta|procedimento)[:\s]*R?\$?\s*(V)` with `V` the currency group. -/
def valorP1 : RE := reSeq [
  reAlts [ciStr "valor", ciStr "total", ciStr "consulta", ciStr "procedimento"],
  colS, .crep isRCi 0 (some 1) false, .crep isDollar 0 (some 1) false, wsS, valGrp]

/-- Pattern `R\$\s*(V)`. -/
def valorP2 : RE := reSeq [ciChar 'R', .cls isDollar, wsS, valGrp]

/-- Pattern `(?:pagar|cobrar)[:\s]*R?\$?\s*(V)`. -/
def valorP3 : RE := reSeq [reAlts [ciStr "pagar", ciStr "cobrar"],
  colS, .crep isRCi 0 (some 1) false, .crep isDollar 0 (some 1) false, wsS, valGrp]

/-- Pattern `\bR\$?\s*(\d+,\d{2})\b`. -/
def valorP4 : RE := reSeq [.wordB, ciChar 'R', .crep isDollar 0 (some 1) false, wsS,
  .grp (reSeq [digP, .cls isComma, digN 2]), .wordB]

/-- The list `valor_patterns` of the source. -/
def valor_patterns : List RE := [valorP1, valorP2, valorP3, valorP4]

/-! ### The normalization and the post-processing helpers -/

/-- Python `text.replace('\n', ' ')`: every newline becomes a space. -/
def replaceNl (l : List Char) : List Char := l.map (fun c => if c = '\n' then ' ' else c)

/-- Python `text.replace('  ', ' ')`: one left-to-right pass replacing each
non-overlapping pair of adjacent spaces by a single space. -/
def collapsePairs : List Char → List Char
  | [] => []
  | [c] => [c]
  | a :: b :: r =>
    if a = ' ' ∧ b = ' ' then ' ' :: collapsePairs r
    else a :: collapsePairs (b :: r)

/-- The whole-blob normalization `text.replace('\n', ' ').replace('  ', ' ')`
of `extract_information` (line 134 of `src/app.py`). -/
def normalizeText (l : List Char) : List Char := collapsePairs (replaceNl l)

/-- Python `str.strip()` on the whitespace set. -/
def pyStrip (l : List Char) : List Char :=
  ((l.dropWhile pySpace).reverse.dropWhile pySpace).reverse

mutual

/-- Python `re.sub(r'\s{2,}', ' ', s)`: each maximal run of two or more
whitespace characters becomes a single space; single whitespace characters
are kept as they are.  `collapseWsSkip` consumes the remainder of a run
whose replacement space has already been emitted. -/
def collapseWsRuns : List Char → List Char
  | [] => []
  | [c] => [c]
  | c :: c2 :: r =>
    if pySpace c then
      if pySpace c2 then ' ' :: collapseWsSkip r
      else c :: collapseWsRuns (c2 :: r)
    else c :: collapseWsRuns (c2 :: r)

/-- Tail of a whitespace run being collapsed. -/
def collapseWsSkip : List Char → List Char
  | [] => []
  | c :: r => if pySpace c then collapseWsSkip r else c :: collapseWsRuns r

end

/-- Characters removed from the end of a name by `re.sub(r'[:\-–—]+$', '', s)`. -/
def trailJunk (c : Char) : Bool := c == ':' || c == '-' || c == '–' || c == '—'

/-- Python `re.sub(r'[:\-–—]+$', '', s)`. -/
def stripTrailJunk (l : List Char) : List Char := (l.reverse.dropWhile trailJunk).reverse

mutual

/-- Number of tokens of Python `s.split()` (maximal non-whitespace runs);
`tokenRest` counts while inside a token. -/
def tokenCount : List Char → Nat
  | [] => 0
  | c :: r => if pySpace c then tokenCount r else 1 + tokenRest r

/-- Token counting while inside a token. -/
def tokenRest : List Char → Nat
  | [] => 0
  | c :: r => if pySpace c then tokenCount r else tokenRest r

end

/-- The two replaces applied to a raw date capture:
`.replace('.', '/').replace('-', '/')`. -/
def dateMapSep (l : List Char) : List Char :=
  (l.map (fun c => if c = '.' then '/' else c)).map (fun c => if c = '-' then '/' else c)

/-! ### The extraction loops of `extract_information` -/

/-- An ANS/date/value style loop: first pattern whose search matches wins
(the source `break`s on the first match, with no validation). -/
def firstCapture (ps : List RE) (s : List Char) : Option (List Char) :=
  match ps with
  | [] => none
  | p :: rest =>
    match reSearchG1 p s with
    | some v => some v
    | none => firstCapture rest s

/-- The guide-number loop: on a match, strip non-digits; `break` only when
at least 4 digits remain, otherwise continue with the next pattern. -/
def guiaScan (ps : List RE) (s : List Char) : Option (List Char) :=
  match ps with
  | [] => none
  | p :: rest =>
    match reSearchG1 p s with
    | some g =>
      let numero := g.filter isDig
      if 4 ≤ numero.length then some numero else guiaScan rest s
    | none => guiaScan rest s

/-- Clean-up applied to a raw name capture (strip, collapse inner
whitespace, drop trailing `[:\-–—]+`, strip again). -/
def nomeClean (g : List Char) : List Char :=
  pyStrip (stripTrailJunk (collapseWsRuns (pyStrip g)))

/-- The name loop: on a match, clean the capture; `break` only when the
cleaned name splits into at least two tokens, otherwise continue. -/
def nomeScan (ps : List RE) (s : List Char) : Option (List Char) :=
  match ps with
  | [] => none
  | p :: rest =>
    match reSearchG1 p s with
    | some g =>
      let nome := nomeClean g
      if 2 ≤ tokenCount nome then some nome else nomeScan rest s
    | none => nomeScan rest s

/-- Field results of the five extraction loops on the normalized text. -/
def ansResult (tn : List Char) : Option (List Char) := firstCapture ans_patterns tn

/-- Guide-number result (validated digits). -/
def guiaResult (tn : List Char) : Option (List Char) := guiaScan guia_patterns tn

/-- Date result, separators already normalized to `/`. -/
def dataResult (tn : List Char) : Option (List Char) :=
  (firstCapture data_patterns tn).map dateMapSep

/-- Name result (cleaned, at least two tokens). -/
def nomeResult (tn : List Char) : Option (List Char) := nomeScan nome_patterns tn

/-- Consultation-value result (the literal capture). -/
def valorResult (tn : List Char) : Option (List Char) := firstCapture valor_patterns tn

/-- The five record keys, in the insertion order of the source dict. -/
def K1 : String := "1 - Registro ANS"

/-- Key of the guide-number field. -/
def K2 : String := "2 - Número GUIA"

/-- Key of the authorization-date field. -/
def K3 : String := "4 - Data de Autorização"

/-- Key of the name field. -/
def K4 : String := "10 - Nome"

/-- Key of the consultation-value field. -/
def K5 : String := "Valor da Consulta"

/-- The initial record: all five keys map to the empty string. -/
def Rec0 : List (String × List Char) :=
  [(K1, []), (K2, []), (K3, []), (K4, []), (K5, [])]

/-- Assignment `info[k] = v` on a Python dict whose keys are fixed:
updates the value in place, preserving insertion order. -/
def setField (k : String) (v : List Char) : List (String × List Char) → List (String × List Char)
  | [] => []
  | (k2, v2) :: r => if k2 = k then (k2, v) :: r else (k2, v2) :: setField k v r

/-- Write a loop's result into the record, when there is one. -/
def applyOpt (k : String) (res : Option (List Char)) (info : List (String × List Char)) :
    List (String × List Char) :=
  match res with
  | some v => setField k v info
  | none => info

/-- The function `extract_information` of `src/app.py` (lines 121–197 plus
the value block and `return` at lines 364–377; the module-level lines
355–362 are an orphaned duplicate of the name clean-up and are not part of
the function).  `none` models the Python input `None`; together with the
empty string it takes the `if not text: return info` early exit. -/
def extract_information (t : Option (List Char)) : List (String × List Char) :=
  match t with
  | none => Rec0
  | some s =>
    if s.isEmpty then Rec0 else
    let tn := normalizeText s
    applyOpt K5 (valorResult tn)
      (applyOpt K4 (nomeResult tn)
        (applyOpt K3 (dataResult tn)
          (applyOpt K2 (guiaResult tn)
            (applyOpt K1 (ansResult tn) Rec0))))

/-- Value of a field in the extracted record. -/
def fieldOf (t : String) (k : String) : Option (List Char) :=
  (extract_information (some t.data)).lookup k

/-! ### Shape predicates used to state the date claims -/

/-- A raw date token as matched by the group `\d{2}[/.\-]\d{2}[/.\-]\d{4}`. -/
def isDateToken (d : List Char) : Bool :=
  match d with
  | [a, b, s1, c, e, s2, f, g, h, i] =>
    isDig a && isDig b && isSepCh s1 && isDig c && isDig e && isSepCh s2 &&
    isDig f && isDig g && isDig h && isDig i
  | _ => false

/-- A stored date: `DD/MM/YYYY` with both separators already `/`. -/
def isNormDate (d : List Char) : Bool :=
  match d with
  | [a, b, s1, c, e, s2, f, g, h, i] =>
    isDig a && isDig b && s1 == '/' && isDig c && isDig e && s2 == '/' &&
    isDig f && isDig g && isDig h && isDig i
  | _ => false

/-- The character left of a candidate match position is not a word
character (or there is none): one half of a `\b` boundary for a token that
starts with a digit. -/
def nonWordLastOk (u : List Char) : Bool :=
  match u.getLast? with
  | none => true
  | some c => !(isWordC c)

/-- The character right of a candidate token is not a word character (or
there is none). -/
def nonWordHeadOk (v : List Char) : Bool :=
  match v.head? with
  | none => true
  | some c => !(isWordC c)

/-! ### Model of the text-acquisition front end (claim about engine
availability)

`extract_text_from_pdf` (lines 44–87 of `src/app.py`) refuses with `None`
when PyMuPDF is unavailable; otherwise it concatenates per-page text,
running OCR on a page only when Tesseract is available and the embedded
text layer is shorter than 50 characters after stripping.  When Tesseract
is unavailable it merely warns and keeps the text layer.  The success path
of the `try` blocks is modelled (the OCR call is assumed to return its
text); Streamlit warnings/errors are UI-only and not part of the state. -/

/-- A PDF page: its embedded text layer and what OCR would read from it. -/
structure PdfPage where
  textLayer : List Char
  ocrText : List Char

/-- Per-page text choice of `extract_text_from_pdf`. -/
def pageExtract (tesseractAvailable : Bool) (p : PdfPage) : List Char :=
  if tesseractAvailable && decide ((pyStrip p.textLayer).length < 50) then p.ocrText
  else p.textLayer

/-- The function `extract_text_from_pdf` of `src/app.py`. -/
def extract_text_from_pdf (pymupdfAvailable tesseractAvailable : Bool)
    (pages : List PdfPage) : Option (List Char) :=
  if !pymupdfAvailable then none
  else some (pages.foldl (fun acc p => acc ++ pageExtract tesseractAvailable p ++ ['\n']) [])

/-- The function `extract_text_from_image` of `src/app.py` (lines 90–118):
refuses with `None` when Tesseract is unavailable, else returns the OCR
text of the image. -/
def extract_text_from_image (tesseractAvailable : Bool) (ocr : List Char) :
    Option (List Char) :=
  if tesseractAvailable then some ocr else none

/-- The text used for the C6 counterexample: a name with a three-newline
gap; one normalization pass leaves a double space inside the name (whose
window `{10,80}` then overflows), a second pass collapses it. -/
def c6text : List Char :=
  ("Nome: Aaaaaaaaaaaaaaaaaaaaaaaaaaaaaaaaaaaaaaaa\n\n\n" ++
    "bbbbbbbbbbbbbbbbbbbbbbbbbbbbbbbbbbbbbbbb CPF").data


/-! ## Theorems -/

/-- Characterization of the extractor on a non-empty text: the record is
exactly the five fixed keys, in dict insertion order, each carrying its
loop's result, or the initial empty string when the loop produced none. -/
theorem extract_some_eq (s : List Char) (h : s.isEmpty = false) :
    extract_information (some s) =
      [(K1, (ansResult (normalizeText s)).getD []),
       (K2, (guiaResult (normalizeText s)).getD []),
       (K3, (dataResult (normalizeText s)).getD []),
       (K4, (nomeResult (normalizeText s)).getD []),
       (K5, (valorResult (normalizeText s)).getD [])] := by
  unfold extract_information
  simp only [h, Bool.false_eq_true, if_false]
  cases hA : ansResult (normalizeText s) <;>
  cases hB : guiaResult (normalizeText s) <;>
  cases hC : dataResult (normalizeText s) <;>
  cases hD : nomeResult (normalizeText s) <;>
  cases hE : valorResult (normalizeText s) <;>
    simp [applyOpt, setField, Rec0, K1, K2, K3, K4, K5]

/-- C1: for every input text (also `None` and the empty string) the
extractor returns a record with exactly the five keys
`1 - Registro ANS`, `2 - Número GUIA`, `4 - Data de Autorização`,
`10 - Nome`, `Valor da Consulta`, each bound to a string value; a field
whose loop validated nothing keeps the empty string — keys are never
absent and values never null. -/
theorem claim_C1 :
    (∀ t, (extract_information t).map Prod.fst = [K1, K2, K3, K4, K5]) ∧
    extract_information none = [(K1, []), (K2, []), (K3, []), (K4, []), (K5, [])] ∧
    extract_information (some []) = [(K1, []), (K2, []), (K3, []), (K4, []), (K5, [])] ∧
    (∀ s, extract_information (some s) =
      if s.isEmpty then [(K1, []), (K2, []), (K3, []), (K4, []), (K5, [])]
      else
        [(K1, (ansResult (normalizeText s)).getD []),
         (K2, (guiaResult (normalizeText s)).getD []),
         (K3, (dataResult (normalizeText s)).getD []),
         (K4, (nomeResult (normalizeText s)).getD []),
         (K5, (valorResult (normalizeText s)).getD [])]) := by
  have hsome : ∀ s, extract_information (some s) =
      if s.isEmpty then [(K1, []), (K2, []), (K3, []), (K4, []), (K5, [])]
      else
        [(K1, (ansResult (normalizeText s)).getD []),
         (K2, (guiaResult (normalizeText s)).getD []),
         (K3, (dataResult (normalizeText s)).getD []),
         (K4, (nomeResult (normalizeText s)).getD []),
         (K5, (valorResult (normalizeText s)).getD [])] := by
    intro s
    cases h : s.isEmpty
    · rw [if_neg (by simp [h]), extract_some_eq s h]
    · rw [if_pos (by simp [h])]
      simp [extract_information, h, Rec0]
  refine ⟨?_, rfl, rfl, hsome⟩
  intro t
  match t with
  | none => rfl
  | some s =>
    rw [hsome s]
    cases h : s.isEmpty <;> simp

/-- C2 counterexample: normalization is a single pairwise pass, so the
input `a␣␣␣b` (three spaces) normalizes to `a␣␣b`, which still contains
two adjacent spaces — contradicting the claim that every run of
whitespace is collapsed to a single space. -/
theorem claim_C2_cex :
    normalizeText "a   b".data = "a  b".data ∧
    [' ', ' '] <:+: normalizeText "a   b".data := by
  constructor <;> decide

/-- Membership in the result of the pairwise space collapse: every output
character is either a space or a character of the input. -/
theorem mem_collapsePairs {c : Char} :
    ∀ l : List Char, c ∈ collapsePairs l → c = ' ' ∨ c ∈ l
  | [], h => by simp [collapsePairs] at h
  | [a], h => by
    simp only [collapsePairs, List.mem_singleton] at h
    exact Or.inr (by simp [h])
  | a :: b :: r, h => by
    rw [collapsePairs] at h
    by_cases hab : a = ' ' ∧ b = ' '
    · rw [if_pos hab] at h
      rcases List.mem_cons.mp h with h | h
      · exact Or.inl h
      · rcases mem_collapsePairs r h with h | h
        · exact Or.inl h
        · exact Or.inr (by simp [h])
    · rw [if_neg hab] at h
      rcases List.mem_cons.mp h with h | h
      · exact Or.inr (by simp [h])
      · rcases mem_collapsePairs (b :: r) h with h | h
        · exact Or.inl h
        · exact Or.inr (List.mem_cons_of_mem a h)

/-- The newline replace leaves no newline behind. -/
theorem nl_not_mem_replaceNl (t : List Char) : '\n' ∉ replaceNl t := by
  intro h
  obtain ⟨a, _, ha⟩ := List.mem_map.mp h
  by_cases h2 : a = '\n' <;> simp [h2] at ha

/-- C2 (amended): the normalization first replaces every newline with a
space and then makes one left-to-right pass replacing each non-overlapping
pair of adjacent spaces with a single space; the result contains no
newline (but, unlike the original claim, adjacent spaces can survive). -/
theorem claim_C2 (t : List Char) :
    normalizeText t = collapsePairs (replaceNl t) ∧ '\n' ∉ normalizeText t := by
  refine ⟨rfl, fun h => ?_⟩
  rcases mem_collapsePairs (replaceNl t) h with h | h
  · exact absurd h (by decide)
  · exact nl_not_mem_replaceNl t h

/-- C7 counterexample: with PyMuPDF present but Tesseract absent, a PDF
page whose text layer is short (so OCR would normally run) is still
processed — the text layer is returned, the engine gap only degrades the
result; processing is not refused. -/
theorem claim_C7_cex :
    extract_text_from_pdf true false [⟨"texto".data, "ocr".data⟩] =
      some ("texto\n".data) ∧
    extract_text_from_pdf true false [⟨"texto".data, "ocr".data⟩] ≠ none := by
  constructor <;> decide

/-- C7 (amended): a missing PyMuPDF refuses every PDF call with `None`
(an error is shown per call; the warning is shown once at import, but the
session is not made fatal), and a missing Tesseract refuses image calls
with `None`; however PDFs are still processed with the OCR engine absent,
degraded to the embedded text layer only. -/
theorem claim_C7 :
    (∀ tess pages, extract_text_from_pdf false tess pages = none) ∧
    (∀ ocr, extract_text_from_image false ocr = none) ∧
    (∀ p : PdfPage, extract_text_from_pdf true false [p] = some (p.textLayer ++ ['\n'])) ∧
    (∀ ocr, extract_text_from_image true ocr = some ocr) := by
  refine ⟨fun tess pages => rfl, fun ocr => rfl, fun p => ?_, fun ocr => rfl⟩
  simp [extract_text_from_pdf, pageExtract]

set_option maxRecDepth 40000

/-- Any guide number the guide loop stores has at least 4 digits and
consists of digits only (the validation at lines 160–163 of the source). -/
theorem guiaScan_valid : ∀ (ps : List RE) (t v : List Char),
    guiaScan ps t = some v → 4 ≤ v.length ∧ v.all isDig = true := by
  intro ps
  induction ps with
  | nil => intro t v h; simp [guiaScan] at h
  | cons p rest ih =>
    intro t v h
    rw [guiaScan] at h
    cases hg : reSearchG1 p t with
    | none => rw [hg] at h; exact ih t v h
    | some g =>
      rw [hg] at h
      simp only [] at h
      by_cases hv : 4 ≤ (g.filter isDig).length
      · rw [if_pos hv] at h
        obtain rfl : g.filter isDig = v := Option.some_injective _ h
        refine ⟨hv, ?_⟩
        rw [List.all_eq_true]
        intro x hx
        exact List.of_mem_filter hx
      · rw [if_neg hv] at h
        exact ih t v h

/-- C4 counterexample: a capture with only five digits is accepted and
stored (`GUIA: 12345` gives `12345`), so the configured minimum is not 6. -/
theorem claim_C4_cex :
    fieldOf "GUIA: 12345" K2 = some ("12345".data) ∧ ("12345".data).length < 6 := by
  constructor <;> decide

/-- C4 (amended): after a guide pattern matches, all non-digit characters
are stripped and the result is stored only if at least 4 digits remain
(not 6); a capture failing this validation makes the loop continue with
the next pattern instead of leaving the field empty — in the last input
the first matching patterns capture only `12`, and the fifth pattern then
provides `345678`. -/
theorem claim_C4 :
    (∀ t v, guiaResult t = some v → 4 ≤ v.length ∧ v.all isDig = true) ∧
    fieldOf "GUIA: 1234" K2 = some ("1234".data) ∧
    fieldOf "GUIA: 123" K2 = some [] ∧
    fieldOf "Número GUIA: 12 x GUIA: 345678" K2 = some ("345678".data) := by
  refine ⟨fun t v h => guiaScan_valid guia_patterns t v h, ?_, ?_, ?_⟩ <;> decide

/-- C4 witness: the general validity statement applied to a concrete
input whose guide loop stores `345678`. -/
theorem claim_C4_witness :
    4 ≤ ("345678".data).length ∧ ("345678".data).all isDig = true :=
  claim_C4.1 (normalizeText "Número GUIA: 12 x GUIA: 345678".data) ("345678".data)
    (by decide)

/-- Any name the name loop stores splits into at least two
whitespace-separated tokens (the validation at lines 195–197). -/
theorem nomeScan_tokens : ∀ (ps : List RE) (t v : List Char),
    nomeScan ps t = some v → 2 ≤ tokenCount v := by
  intro ps
  induction ps with
  | nil => intro t v h; simp [nomeScan] at h
  | cons p rest ih =>
    intro t v h
    rw [nomeScan] at h
    cases hg : reSearchG1 p t with
    | none => rw [hg] at h; exact ih t v h
    | some g =>
      rw [hg] at h
      simp only [] at h
      by_cases hv : 2 ≤ tokenCount (nomeClean g)
      · rw [if_pos hv] at h
        obtain rfl : nomeClean g = v := Option.some_injective _ h
        exact hv
      · rw [if_neg hv] at h
        exact ih t v h

/-- C3 counterexample: the input `Nome: Maria Silva` yields an empty name
(none of the name patterns can close the capture at the end of the text),
contradicting the claimed result `Maria Silva`; and `Nome: Maria D Silva
CPF` stores a name containing the one-character token `D`, contradicting
the claim that every token must be longer than one character. -/
theorem claim_C3_cex :
    fieldOf "Nome: Maria Silva" K4 = some [] ∧
    fieldOf "Nome: Maria D Silva CPF" K4 = some ("Maria D Silva".data) := by
  constructor <;> decide

/-- C3 (amended): a captured name is accepted only if, after whitespace
collapsing, it splits into at least two whitespace-separated tokens — with
no minimum token length; the name patterns additionally require a
recognized terminator after the capture, so `Nome: Maria` and
`Nome: Maria Silva` (at the end of the text) yield an empty name field,
while `Nome: Maria Silva CPF` yields `Maria Silva`. -/
theorem claim_C3 :
    (∀ t v, nomeResult t = some v → 2 ≤ tokenCount v) ∧
    fieldOf "Nome: Maria" K4 = some [] ∧
    fieldOf "Nome: Maria Silva" K4 = some [] ∧
    fieldOf "Nome: Maria Silva CPF" K4 = some ("Maria Silva".data) := by
  refine ⟨fun t v h => nomeScan_tokens nome_patterns t v h, ?_, ?_, ?_⟩ <;> decide

/-- C3 witness: the general token bound applied to a concrete input whose
name loop stores `Maria Silva`. -/
theorem claim_C3_witness : 2 ≤ tokenCount ("Maria Silva".data) :=
  claim_C3.1 ("Nome: Maria Silva CPF".data) ("Maria Silva".data) (by decide)

/-- C9: the consultation value is stored as the literal captured string —
`Valor: R$ 1.234,56` yields exactly `1.234,56` (thousands separator kept,
no numeric re-encoding), and in general whatever string the value loop
captures is written unchanged into the record. -/
theorem claim_C9 :
    fieldOf "Valor: R$ 1.234,56" K5 = some ("1.234,56".data) ∧
    (∀ s v, s.isEmpty = false → valorResult (normalizeText s) = some v →
      (extract_information (some s)).lookup K5 = some v) := by
  constructor
  · decide
  · intro s v hs hv
    rw [extract_some_eq s hs]
    simp [List.lookup, K1, K2, K3, K4, K5, hv]

/-- C9 witness: the literal-storage statement applied to the concrete
input of the claim. -/
theorem claim_C9_witness :
    (extract_information (some "Valor: R$ 1.234,56".data)).lookup K5 =
      some ("1.234,56".data) :=
  claim_C9.2 ("Valor: R$ 1.234,56".data) ("1.234,56".data) (by decide) (by decide)

/-- The pairwise space collapse never empties a non-empty list. -/
theorem collapsePairs_ne_nil : ∀ l : List Char, l ≠ [] → collapsePairs l ≠ []
  | [], h => absurd rfl h
  | [c], _ => by simp [collapsePairs]
  | a :: b :: r, _ => by
    rw [collapsePairs]
    split <;> simp

/-- C6 counterexample: running the extractor on the already-normalized
form of `c6text` does not give the record of the original multi-line
text — the single-pass space collapse is not idempotent, and the name
field differs. -/
theorem claim_C6_cex :
    extract_information (some (normalizeText c6text)) ≠
      extract_information (some c6text) := by
  decide

/-- C6 (amended): the extractor gives identical records on a text and on
its normalized form whenever normalization is idempotent on that text
(equivalently, whenever the normalized form contains no leftover adjacent
spaces); for texts like `c6text`, where one pass leaves a double space,
the records can differ. -/
theorem claim_C6 (t : List Char)
    (h : normalizeText (normalizeText t) = normalizeText t) :
    extract_information (some (normalizeText t)) = extract_information (some t) := by
  cases ht : t.isEmpty
  · have hn : (normalizeText t).isEmpty = false := by
      have := collapsePairs_ne_nil (replaceNl t)
        (by cases t with
          | nil => simp at ht
          | cons c r => simp [replaceNl])
      simpa [normalizeText, List.isEmpty_iff] using this
    rw [extract_some_eq _ hn, extract_some_eq t ht, h]
  · have : t = [] := List.isEmpty_iff.mp ht
    subst this
    rfl

/-- C6 witness: the amended equivalence at a concrete already-stable
text. -/
theorem claim_C6_witness :
    extract_information (some (normalizeText "Nome: Ana".data)) =
      extract_information (some "Nome: Ana".data) :=
  claim_C6 "Nome: Ana".data (by decide)

/-! ### Engine characterization lemmas -/

theorem mrun_cat (F : Nat) (a b : RE) (st : MSt) :
    mrun F (.cat a b) st = (mrun F a st).flatMap (mrun F b) := rfl

theorem mem_downFrom : ∀ (t lo k : Nat), k ∈ downFrom lo t ↔ lo ≤ k ∧ k ≤ t := by
  intro t
  induction t with
  | zero =>
    intro lo k
    by_cases h : lo = 0 <;> simp [downFrom, h] <;> omega
  | succ t ih =>
    intro lo k
    rw [downFrom]
    by_cases h : t + 1 < lo
    · simp [h]; omega
    · simp [h, ih]; omega

theorem stAdvance_zero (st : MSt) : stAdvance st 0 = st := by simp [stAdvance]

theorem stAdvance_rest (st : MSt) (k : Nat) : (stAdvance st k).rest = st.rest.drop k := by
  by_cases h : k = 0 <;> simp [stAdvance, h]

theorem stAdvance_cap (st : MSt) (k : Nat) : (stAdvance st k).cap = st.cap := by
  by_cases h : k = 0 <;> simp [stAdvance, h]

theorem countLead_cons_pos {p : Char → Bool} {c : Char} (l : List Char) (h : p c = true) :
    countLead p (c :: l) = countLead p l + 1 := by simp [countLead, h]

theorem countLead_cons_neg {p : Char → Bool} {c : Char} (l : List Char) (h : p c = false) :
    countLead p (c :: l) = 0 := by simp [countLead, h]

theorem countLead_eq_zero {p : Char → Bool} {l : List Char}
    (h : ∀ c, l.head? = some c → p c = false) : countLead p l = 0 := by
  cases l with
  | nil => rfl
  | cons c r => exact countLead_cons_neg r (h c rfl)

theorem countLead_eq_length_of_all {p : Char → Bool} :
    ∀ l : List Char, l.all p = true → countLead p l = l.length := by
  intro l
  induction l with
  | nil => intro _; rfl
  | cons c r ih =>
    intro h
    rw [List.all_cons, Bool.and_eq_true] at h
    rw [countLead_cons_pos r h.1, ih h.2, List.length_cons]

theorem countLead_le_length {p : Char → Bool} : ∀ l : List Char, countLead p l ≤ l.length := by
  intro l
  induction l with
  | nil => exact Nat.le_refl 0
  | cons c r ih =>
    by_cases h : p c
    · rw [countLead_cons_pos r h]; simpa using ih
    · rw [countLead_cons_neg r (by simpa using h)]; simp

theorem take_all_of_le_countLead {p : Char → Bool} :
    ∀ (k : Nat) (l : List Char), k ≤ countLead p l → (l.take k).all p = true := by
  intro k
  induction k with
  | zero => intro l _; simp
  | succ k ih =>
    intro l h
    cases l with
    | nil => simp [countLead] at h
    | cons c r =>
      by_cases hc : p c
      · rw [countLead_cons_pos r hc] at h
        simp only [List.take_succ_cons, List.all_cons, Bool.and_eq_true]
        exact ⟨hc, ih r (by omega)⟩
      · rw [countLead_cons_neg r (by simpa using hc)] at h; omega

/-- Search returns `none` when the pattern matches at no suffix. -/
theorem searchFrom_none (F : Nat) (re : RE) :
    ∀ (s : List Char) (pr : Option Char),
      (∀ s2 pr2, s2 <:+ s → mrun F re ⟨s2, pr2, none⟩ = []) →
      searchFrom F re s pr = none := by
  intro s
  induction s with
  | nil =>
    intro pr h
    rw [searchFrom, h [] pr (List.suffix_refl _)]
    rfl
  | cons c r ih =>
    intro pr h
    rw [searchFrom, h (c :: r) pr (List.suffix_refl _)]
    simp only [List.head?_nil]
    exact ih (some c) (fun s2 pr2 hs => h s2 pr2 (hs.trans (List.suffix_cons c r)))

/-- The previous character seen by the matcher at the position after `x`. -/
theorem prevAt_cons (c : Char) (x : List Char) (pr : Option Char) :
    (((c :: x).getLast?).or pr) = ((x.getLast?).or (some c)) := by
  cases x with
  | nil => simp
  | cons d x3 =>
    rw [List.getLast?_cons_cons]
    cases hx : (d :: x3).getLast? with
    | none => simp at hx
    | some y => simp

/-- Search succeeds outright when the pattern matches at the current
position. -/
theorem searchFrom_of_here (F : Nat) (re : RE) (s : List Char) (pr : Option Char)
    (h : mrun F re ⟨s, pr, none⟩ ≠ []) : searchFrom F re s pr ≠ none := by
  cases s with
  | nil =>
    rw [searchFrom]
    simpa [List.head?_eq_none_iff] using h
  | cons c r =>
    rw [searchFrom]
    cases hh : (mrun F re ⟨c :: r, pr, none⟩).head? with
    | none =>
      rw [List.head?_eq_none_iff] at hh
      exact absurd hh h
    | some st => simp

/-- Search cannot return `none` when the pattern matches at the position
right after a prefix `x`. -/
theorem searchFrom_ne_none (F : Nat) (re : RE) :
    ∀ (x w : List Char) (pr : Option Char),
      mrun F re ⟨w, (x.getLast?).or pr, none⟩ ≠ [] →
      searchFrom F re (x ++ w) pr ≠ none := by
  intro x
  induction x with
  | nil =>
    intro w pr h
    rw [List.nil_append]
    exact searchFrom_of_here F re w pr (by simpa using h)
  | cons c x2 ih =>
    intro w pr h
    rw [List.cons_append, searchFrom]
    cases hh : (mrun F re ⟨c :: (x2 ++ w), pr, none⟩).head? with
    | none =>
      have h2 : mrun F re ⟨w, (x2.getLast?).or (some c), none⟩ ≠ [] := by
        rw [← prevAt_cons c x2 pr]; exact h
      exact ih w (some c) h2
    | some st => simp

theorem isDig_toNat {d : Char} (h : isDig d = true) : 48 ≤ d.toNat ∧ d.toNat ≤ 57 := by
  simp only [isDig, Char.isDigit, ge_iff_le, Bool.and_eq_true, decide_eq_true_eq] at h
  obtain ⟨h1, h2⟩ := h
  constructor
  · exact UInt32.le_toNat_of_le (by norm_num [UInt32.size]) h1
  · exact UInt32.toNat_le_of_le (by norm_num [UInt32.size]) h2

theorem digit_cases {d : Char} (h : isDig d = true) :
    d = '0' ∨ d = '1' ∨ d = '2' ∨ d = '3' ∨ d = '4' ∨ d = '5' ∨ d = '6' ∨
    d = '7' ∨ d = '8' ∨ d = '9' := by
  obtain ⟨h1, h2⟩ := isDig_toNat h
  have hn : d.toNat = 48 ∨ d.toNat = 49 ∨ d.toNat = 50 ∨ d.toNat = 51 ∨ d.toNat = 52 ∨
      d.toNat = 53 ∨ d.toNat = 54 ∨ d.toNat = 55 ∨ d.toNat = 56 ∨ d.toNat = 57 := by omega
  have hofn := Char.ofNat_toNat d
  rcases hn with hn|hn|hn|hn|hn|hn|hn|hn|hn|hn <;> rw [hn] at hofn <;> subst hofn <;> decide

theorem mrun_alt (F : Nat) (a b : RE) (st : MSt) :
    mrun F (.alt a b) st = mrun F a st ++ mrun F b st := rfl

theorem mrun_cls_cons (F : Nat) (q : Char → Bool) (c : Char) (r : List Char)
    (pr : Option Char) (cap : Option (List Char)) :
    mrun F (.cls q) ⟨c :: r, pr, cap⟩ = if q c then [⟨r, some c, cap⟩] else [] := rfl

theorem mrun_cls_nil (F : Nat) (q : Char → Bool) (pr : Option Char)
    (cap : Option (List Char)) : mrun F (.cls q) ⟨[], pr, cap⟩ = [] := rfl

theorem mrun_cat_headfail (F : Nat) (q : Char → Bool) (R : RE) (c : Char) (r : List Char)
    (pr : Option Char) (cap : Option (List Char)) (h : q c = false) :
    mrun F (.cat (.cls q) R) ⟨c :: r, pr, cap⟩ = [] := by
  rw [mrun_cat, mrun_cls_cons, if_neg (by simp [h])]
  rfl

theorem mrun_cat_nilfail (F : Nat) (q : Char → Bool) (R : RE) (pr : Option Char)
    (cap : Option (List Char)) : mrun F (.cat (.cls q) R) ⟨[], pr, cap⟩ = [] := by
  rw [mrun_cat, mrun_cls_nil]
  rfl

theorem mrun_cat_cls_step (F : Nat) (q : Char → Bool) (R : RE) (c : Char) (r : List Char)
    (pr : Option Char) (cap : Option (List Char)) (h : q c = true) :
    mrun F (.cat (.cls q) R) ⟨c :: r, pr, cap⟩ = mrun F R ⟨r, some c, cap⟩ := by
  rw [mrun_cat, mrun_cls_cons, if_pos (by simp [h])]
  simp

theorem mrun_crep0 (F : Nat) (p : Char → Bool) (hi : Option Nat) (lz : Bool) (st : MSt)
    (h : countLead p st.rest = 0) : mrun F (.crep p 0 hi lz) st = [st] := by
  have htop : (match hi with | none => countLead p st.rest | some h2 => min h2 (countLead p st.rest)) = 0 := by
    cases hi <;> simp [h]
  have hr1 : List.range 1 = [0] := rfl
  cases lz <;> simp [mrun, crepKs, htop, downFrom, hr1, stAdvance_zero]

theorem mrun_cat_crep0 (F : Nat) (p : Char → Bool) (hi : Option Nat) (lz : Bool) (R : RE)
    (st : MSt) (h : countLead p st.rest = 0) :
    mrun F (.cat (.crep p 0 hi lz) R) st = mrun F R st := by
  rw [mrun_cat, mrun_crep0 F p hi lz st h]
  simp

theorem mrun_cat_of_single (F : Nat) (a R : RE) (st st1 : MSt)
    (h : mrun F a st = [st1]) : mrun F (.cat a R) st = mrun F R st1 := by
  rw [mrun_cat, h]
  simp

theorem downFrom_cons {lo t : Nat} (h : lo ≤ t) : ∃ tl, downFrom lo t = t :: tl := by
  cases t with
  | zero =>
    have : lo = 0 := by omega
    exact ⟨[], by simp [downFrom, this]⟩
  | succ t2 => exact ⟨downFrom lo t2, by rw [downFrom, if_neg (by omega)]⟩

theorem firstRes_cat (st1 : MSt) {F : Nat} {a R : RE} {st st2 : MSt}
    (h1 : ∃ t, mrun F a st = st1 :: t) (h2 : ∃ t, mrun F R st1 = st2 :: t) :
    ∃ t, mrun F (.cat a R) st = st2 :: t := by
  obtain ⟨t1, h1⟩ := h1
  obtain ⟨t2, h2⟩ := h2
  refine ⟨t2 ++ t1.flatMap (mrun F R), ?_⟩
  rw [mrun_cat, h1]
  simp [h2]

theorem firstRes_eps {F : Nat} {st : MSt} : ∃ t, mrun F .eps st = st :: t := ⟨[], rfl⟩

theorem firstRes_cls {F : Nat} {q : Char → Bool} {c : Char} {r : List Char}
    {pr : Option Char} {cap : Option (List Char)} (h : q c = true) :
    ∃ t, mrun F (.cls q) ⟨c :: r, pr, cap⟩ = ⟨r, some c, cap⟩ :: t :=
  ⟨[], by rw [mrun_cls_cons, if_pos (by simp [h])]⟩

theorem firstRes_crep0 {F : Nat} {p : Char → Bool} {hi : Option Nat} {lz : Bool} {st : MSt}
    (h : countLead p st.rest = 0) : ∃ t, mrun F (.crep p 0 hi lz) st = st :: t :=
  ⟨[], mrun_crep0 F p hi lz st h⟩

theorem firstRes_crep_greedy (F : Nat) (p : Char → Bool) (lo : Nat) (st : MSt)
    (h : lo ≤ countLead p st.rest) :
    ∃ t, mrun F (.crep p lo none false) st =
      stAdvance st (countLead p st.rest) :: t := by
  obtain ⟨tl, htl⟩ := downFrom_cons h
  exact ⟨tl.map (stAdvance st), by simp [mrun, crepKs, htl]⟩

theorem firstRes_grp (F : Nat) {r : RE} {st st1 : MSt}
    (h : ∃ t, mrun F r st = st1 :: t) :
    ∃ t, mrun F (.grp r) st =
      ({ st1 with cap := some (st.rest.take (st.rest.length - st1.rest.length)) } : MSt) :: t := by
  obtain ⟨t1, h1⟩ := h
  refine ⟨t1.map
    (fun st2 => { st2 with cap := some (st.rest.take (st.rest.length - st2.rest.length)) }), ?_⟩
  simp [mrun, h1]

theorem reSearchG1_of_first {re : RE} {s : List Char} {st2 : MSt}
    (h : ∃ t, mrun (s.length + FUEL) re ⟨s, none, none⟩ = st2 :: t) :
    reSearchG1 re s = st2.cap := by
  obtain ⟨t, h⟩ := h
  rw [reSearchG1]
  cases s with
  | nil => rw [searchFrom, h]; rfl
  | cons c r => rw [searchFrom, h]; rfl

theorem reSearchG1_none {re : RE} {s : List Char}
    (h : ∀ s2 pr2, s2 <:+ s → mrun (s.length + FUEL) re ⟨s2, pr2, none⟩ = []) :
    reSearchG1 re s = none := by
  rw [reSearchG1, searchFrom_none _ _ _ _ h]

/-! ### Digit facts for the class predicates -/

theorem digit_pySpace {d : Char} (h : isDig d = true) : pySpace d = false := by
  rcases digit_cases h with rfl|rfl|rfl|rfl|rfl|rfl|rfl|rfl|rfl|rfl <;> decide

theorem digit_colonSp {d : Char} (h : isDig d = true) : isColonSp d = false := by
  rcases digit_cases h with rfl|rfl|rfl|rfl|rfl|rfl|rfl|rfl|rfl|rfl <;> decide

theorem digit_dash {d : Char} (h : isDig d = true) : isDashCh d = false := by
  rcases digit_cases h with rfl|rfl|rfl|rfl|rfl|rfl|rfl|rfl|rfl|rfl <;> decide

theorem digit_nCi {d : Char} (h : isDig d = true) : isNCi d = false := by
  rcases digit_cases h with rfl|rfl|rfl|rfl|rfl|rfl|rfl|rfl|rfl|rfl <;> decide

theorem digit_degree {d : Char} (h : isDig d = true) : isDegree d = false := by
  rcases digit_cases h with rfl|rfl|rfl|rfl|rfl|rfl|rfl|rfl|rfl|rfl <;> decide

theorem digit_not_r {d : Char} (h : isDig d = true) : (lcx d == lcx 'R') = false := by
  rcases digit_cases h with rfl|rfl|rfl|rfl|rfl|rfl|rfl|rfl|rfl|rfl <;> decide

theorem digit_not_o {d : Char} (h : isDig d = true) : (lcx d == lcx 'O') = false := by
  rcases digit_cases h with rfl|rfl|rfl|rfl|rfl|rfl|rfl|rfl|rfl|rfl <;> decide

theorem digit_lcx {d : Char} (h : isDig d = true) : lcx d = d := by
  rcases digit_cases h with rfl|rfl|rfl|rfl|rfl|rfl|rfl|rfl|rfl|rfl <;> decide

theorem digit_ne_nl {d : Char} (h : isDig d = true) : d ≠ '\n' := by
  rcases digit_cases h with rfl|rfl|rfl|rfl|rfl|rfl|rfl|rfl|rfl|rfl <;> decide

theorem digit_ne_space {d : Char} (h : isDig d = true) : d ≠ ' ' := by
  rcases digit_cases h with rfl|rfl|rfl|rfl|rfl|rfl|rfl|rfl|rfl|rfl <;> decide

theorem countLead_zero_digits {r : List Char} (hr : r.all isDig = true)
    {p : Char → Bool} (hp : ∀ d, isDig d = true → p d = false) : countLead p r = 0 := by
  cases r with
  | nil => rfl
  | cons c rr =>
    rw [List.all_cons, Bool.and_eq_true] at hr
    exact countLead_cons_neg rr (hp c hr.1)

/-- Decomposition of the suffixes of the canonical bare-`ANS` text. -/
theorem suffix_ANS {s2 ds : List Char} (h : s2 <:+ ('A' :: 'N' :: 'S' :: ' ' :: ds)) :
    s2 = 'A' :: 'N' :: 'S' :: ' ' :: ds ∨ s2 = 'N' :: 'S' :: ' ' :: ds ∨
    s2 = 'S' :: ' ' :: ds ∨ s2 = ' ' :: ds ∨ s2 <:+ ds := by
  rcases List.suffix_cons_iff.mp h with h | h
  · exact Or.inl h
  rcases List.suffix_cons_iff.mp h with h | h
  · exact Or.inr (Or.inl h)
  rcases List.suffix_cons_iff.mp h with h | h
  · exact Or.inr (Or.inr (Or.inl h))
  rcases List.suffix_cons_iff.mp h with h | h
  · exact Or.inr (Or.inr (Or.inr (Or.inl h)))
  · exact Or.inr (Or.inr (Or.inr (Or.inr h)))

theorem all_of_suffix_digits {s2 ds : List Char} (hds : ds.all isDig = true)
    (h : s2 <:+ ds) : s2.all isDig = true := by
  rw [List.all_eq_true] at hds ⊢
  exact fun c hc => hds c (h.subset hc)

theorem mrun_cat_of_nil (F : Nat) (a R : RE) (st : MSt) (h : mrun F a st = []) :
    mrun F (.cat a R) st = [] := by
  rw [mrun_cat, h]
  rfl

theorem collapsePairs_no_space :
    ∀ l : List Char, (∀ c ∈ l, c ≠ ' ') → collapsePairs l = l
  | [], _ => rfl
  | [c], _ => rfl
  | a :: b :: r, h => by
    rw [collapsePairs, if_neg (fun hab => h a (by simp) hab.1)]
    rw [collapsePairs_no_space (b :: r) (fun c hc => h c (List.mem_cons_of_mem a hc))]

theorem replaceNl_eq_self {l : List Char} (h : ∀ c ∈ l, c ≠ '\n') : replaceNl l = l := by
  rw [replaceNl]
  have : ∀ c ∈ l, (if c = '\n' then ' ' else c) = id c := by
    intro c hc
    rw [if_neg (h c hc)]
    rfl
  rw [List.map_congr_left this, List.map_id]

/-- The canonical bare-`ANS` text is already normalized. -/
theorem normalizeText_ANS {ds : List Char} (hds : ds.all isDig = true) (hne : ds ≠ []) :
    normalizeText ('A' :: 'N' :: 'S' :: ' ' :: ds) = 'A' :: 'N' :: 'S' :: ' ' :: ds := by
  have hnl : ∀ c ∈ ('A' :: 'N' :: 'S' :: ' ' :: ds), c ≠ '\n' := by
    intro c hc
    simp only [List.mem_cons] at hc
    rcases hc with rfl | rfl | rfl | rfl | hc
    · decide
    · decide
    · decide
    · decide
    · exact digit_ne_nl (by rw [List.all_eq_true] at hds; exact hds c hc)
  rw [normalizeText, replaceNl_eq_self hnl]
  cases ds with
  | nil => exact absurd rfl hne
  | cons d ds2 =>
    rw [List.all_cons, Bool.and_eq_true] at hds
    rw [collapsePairs, if_neg (by decide)]
    rw [collapsePairs, if_neg (by decide)]
    rw [collapsePairs, if_neg (by decide)]
    rw [collapsePairs, if_neg (fun hab => digit_ne_space hds.1 hab.2)]
    rw [collapsePairs_no_space (d :: ds2) ?_]
    intro c hc
    rcases List.mem_cons.mp hc with rfl | hc
    · exact digit_ne_space hds.1
    · exact digit_ne_space (by rw [List.all_eq_true] at hds; exact hds.2 c hc)

/-- Pattern `ansP1` cannot match anywhere in a bare-`ANS` text: no dash
follows a `1`. -/
theorem ansP1_fail (F : Nat) {ds : List Char} (hds : ds.all isDig = true) :
    ∀ s2 pr, s2 <:+ ('A' :: 'N' :: 'S' :: ' ' :: ds) →
      mrun F ansP1 ⟨s2, pr, none⟩ = [] := by
  intro s2 pr h
  have hd : ansP1 = .cat (.cls fun x => lcx x == lcx '1')
      (.cat wsS (.cat (.cls isDashCh)
        (reSeq [wsS, ciStr "Registro", wsP, ciStr "ANS", colS, .grp digP]))) := rfl
  rcases suffix_ANS h with rfl | rfl | rfl | rfl | hsuf
  · rw [hd]; exact mrun_cat_headfail _ _ _ _ _ _ _ (by decide)
  · rw [hd]; exact mrun_cat_headfail _ _ _ _ _ _ _ (by decide)
  · rw [hd]; exact mrun_cat_headfail _ _ _ _ _ _ _ (by decide)
  · rw [hd]; exact mrun_cat_headfail _ _ _ _ _ _ _ (by decide)
  · have hall := all_of_suffix_digits hds hsuf
    cases s2 with
    | nil => rw [hd]; exact mrun_cat_nilfail _ _ _ _ _
    | cons c r =>
      rw [List.all_cons, Bool.and_eq_true] at hall
      by_cases h1 : (lcx c == lcx '1') = true
      · rw [hd, mrun_cat_cls_step F (fun x => lcx x == lcx '1') _ c r pr none h1]
        have e1 := mrun_cat_crep0 F pySpace none false
          (.cat (.cls isDashCh)
            (reSeq [wsS, ciStr "Registro", wsP, ciStr "ANS", colS, .grp digP]))
          ⟨r, some c, none⟩ (countLead_zero_digits hall.2 fun d hd2 => digit_pySpace hd2)
        show mrun F (.cat (.crep pySpace 0 none false)
            (.cat (.cls isDashCh)
              (reSeq [wsS, ciStr "Registro", wsP, ciStr "ANS", colS, .grp digP])))
            ⟨r, some c, none⟩ = []
        rw [e1]
        cases r with
        | nil => exact mrun_cat_nilfail _ _ _ _ _
        | cons c2 r2 =>
          rw [List.all_cons, Bool.and_eq_true] at hall
          exact mrun_cat_headfail _ _ _ _ _ _ _ (digit_dash hall.2.1)
      · rw [hd]
        exact mrun_cat_headfail _ _ _ _ _ _ _ (by simpa using h1)

/-- Pattern `ansP2` cannot match anywhere in a bare-`ANS` text: there is
no `R` to start `Registro`. -/
theorem ansP2_fail (F : Nat) {ds : List Char} (hds : ds.all isDig = true) :
    ∀ s2 pr, s2 <:+ ('A' :: 'N' :: 'S' :: ' ' :: ds) →
      mrun F ansP2 ⟨s2, pr, none⟩ = [] := by
  intro s2 pr h
  have hd : ansP2 = .cat (ciStr "Registro") (reSeq [wsP, ciStr "ANS", colS, .grp digP]) :=
    rfl
  have hr : ciStr "Registro" = .cat (.cls fun x => lcx x == lcx 'R')
      ((("egistro").data.map ciChar).foldr .cat .eps) := rfl
  rcases suffix_ANS h with rfl | rfl | rfl | rfl | hsuf
  · rw [hd]
    exact mrun_cat_of_nil _ _ _ _ (by rw [hr]; exact mrun_cat_headfail _ _ _ _ _ _ _ (by decide))
  · rw [hd]
    exact mrun_cat_of_nil _ _ _ _ (by rw [hr]; exact mrun_cat_headfail _ _ _ _ _ _ _ (by decide))
  · rw [hd]
    exact mrun_cat_of_nil _ _ _ _ (by rw [hr]; exact mrun_cat_headfail _ _ _ _ _ _ _ (by decide))
  · rw [hd]
    exact mrun_cat_of_nil _ _ _ _ (by rw [hr]; exact mrun_cat_headfail _ _ _ _ _ _ _ (by decide))
  · have hall := all_of_suffix_digits hds hsuf
    cases s2 with
    | nil => rw [hd]; exact mrun_cat_of_nil _ _ _ _ (by rw [hr]; exact mrun_cat_nilfail _ _ _ _ _)
    | cons c r =>
      rw [List.all_cons, Bool.and_eq_true] at hall
      rw [hd]
      exact mrun_cat_of_nil _ _ _ _
        (by rw [hr]; exact mrun_cat_headfail _ _ _ _ _ _ _ (digit_not_r hall.1))

/-- Pattern `ansP4` cannot match anywhere in a bare-`ANS` text: neither
`Operadora` nor `Registro` can start. -/
theorem ansP4_fail (F : Nat) {ds : List Char} (hds : ds.all isDig = true) :
    ∀ s2 pr, s2 <:+ ('A' :: 'N' :: 'S' :: ' ' :: ds) →
      mrun F ansP4 ⟨s2, pr, none⟩ = [] := by
  intro s2 pr h
  have hd : ansP4 = .cat (.alt (ciStr "Operadora") (ciStr "Registro"))
      (reSeq [dotLazy, ciStr "ANS", colS, .grp (.crep isDig 5 none false)]) := rfl
  have ho : ciStr "Operadora" = .cat (.cls fun x => lcx x == lcx 'O')
      ((("peradora").data.map ciChar).foldr .cat .eps) := rfl
  have hr : ciStr "Registro" = .cat (.cls fun x => lcx x == lcx 'R')
      ((("egistro").data.map ciChar).foldr .cat .eps) := rfl
  have key : ∀ (c : Char) (r : List Char) (pr2 : Option Char),
      ((lcx c == lcx 'O') = false) → ((lcx c == lcx 'R') = false) →
      mrun F ansP4 ⟨c :: r, pr2, none⟩ = [] := by
    intro c r pr2 hO hR
    rw [hd]
    refine mrun_cat_of_nil _ _ _ _ ?_
    rw [mrun_alt, ho, hr]
    rw [mrun_cat_headfail F (fun x => lcx x == lcx 'O') _ c r pr2 none hO]
    rw [mrun_cat_headfail F (fun x => lcx x == lcx 'R') _ c r pr2 none hR]
    rfl
  rcases suffix_ANS h with rfl | rfl | rfl | rfl | hsuf
  · exact key _ _ _ (by decide) (by decide)
  · exact key _ _ _ (by decide) (by decide)
  · exact key _ _ _ (by decide) (by decide)
  · exact key _ _ _ (by decide) (by decide)
  · have hall := all_of_suffix_digits hds hsuf
    cases s2 with
    | nil =>
      rw [hd]
      refine mrun_cat_of_nil _ _ _ _ ?_
      rw [mrun_alt]
      rw [ho, hr]
      rw [mrun_cat_nilfail F (fun x => lcx x == lcx 'O') _ pr none]
      rw [mrun_cat_nilfail F (fun x => lcx x == lcx 'R') _ pr none]
      rfl
    | cons c r =>
      rw [List.all_cons, Bool.and_eq_true] at hall
      exact key _ _ _ (digit_not_o hall.1) (digit_not_r hall.1)

/-- On the bare-`ANS` text, pattern `ansP3` matches at position 0 and its
greedy first match captures the whole digit run. -/
theorem ansP3_first (F : Nat) {ds : List Char} (hds : ds.all isDig = true)
    (hlen : 5 ≤ ds.length) (pr : Option Char) :
    ∃ t, mrun F ansP3 ⟨'A' :: 'N' :: 'S' :: ' ' :: ds, pr, none⟩ =
      (⟨[], ds.getLast?, some ds⟩ : MSt) :: t := by
  have hne : ds ≠ [] := by intro h; subst h; simp at hlen
  have hcol : countLead isColonSp (' ' :: ds) = 1 := by
    rw [countLead_cons_pos ds (by decide)]
    rw [countLead_zero_digits hds fun d hd2 => digit_colonSp hd2]
  have hdig : countLead isDig ds = ds.length := countLead_eq_length_of_all ds hds
  have hANS : mrun F (ciStr "ANS") ⟨'A' :: 'N' :: 'S' :: ' ' :: ds, pr, none⟩ =
      [⟨' ' :: ds, some 'S', none⟩] := by
    show mrun F (.cat (.cls fun x => lcx x == lcx 'A')
      (.cat (.cls fun x => lcx x == lcx 'N')
        (.cat (.cls fun x => lcx x == lcx 'S') .eps))) _ = _
    rw [mrun_cat_cls_step F (fun x => lcx x == lcx 'A') _ 'A' _ pr none (by decide)]
    rw [mrun_cat_cls_step F (fun x => lcx x == lcx 'N') _ 'N' _ (some 'A') none (by decide)]
    rw [mrun_cat_cls_step F (fun x => lcx x == lcx 'S') _ 'S' _ (some 'N') none (by decide)]
    rfl
  have hadv1 : stAdvance ⟨' ' :: ds, some 'S', none⟩ 1 = (⟨ds, some ' ', none⟩ : MSt) := by
    rw [stAdvance, if_neg (by omega)]
    rfl
  have hadvL : stAdvance ⟨ds, some ' ', none⟩ ds.length =
      (⟨[], ds.getLast?, none⟩ : MSt) := by
    rw [stAdvance, if_neg (by omega)]
    simp
  show ∃ t, mrun F (.cat (ciStr "ANS")
    (.cat colS (.cat (.crep isNCi 0 (some 1) false) (.cat (.crep isDegree 0 (some 1) false)
      (.cat wsS (.cat (.grp (.crep isDig 5 none false)) .eps)))))) _ = _
  refine firstRes_cat ⟨' ' :: ds, some 'S', none⟩ ⟨[], hANS⟩ ?_
  refine firstRes_cat ⟨ds, some ' ', none⟩ ?_ ?_
  · have := firstRes_crep_greedy F isColonSp 0 ⟨' ' :: ds, some 'S', none⟩ (by omega)
    rw [hcol, hadv1] at this
    exact this
  refine firstRes_cat ⟨ds, some ' ', none⟩ ?_ ?_
  · exact firstRes_crep0 (countLead_zero_digits hds fun d hd2 => digit_nCi hd2)
  refine firstRes_cat ⟨ds, some ' ', none⟩ ?_ ?_
  · exact firstRes_crep0 (countLead_zero_digits hds fun d hd2 => digit_degree hd2)
  refine firstRes_cat ⟨ds, some ' ', none⟩ ?_ ?_
  · exact firstRes_crep0 (countLead_zero_digits hds fun d hd2 => digit_pySpace hd2)
  refine firstRes_cat ⟨[], ds.getLast?, some ds⟩ ?_ firstRes_eps
  have hinner : ∃ t, mrun F (.crep isDig 5 none false) ⟨ds, some ' ', none⟩ =
      (⟨[], ds.getLast?, none⟩ : MSt) :: t := by
    have := firstRes_crep_greedy F isDig 5 ⟨ds, some ' ', none⟩ (by rw [hdig]; omega)
    rw [hdig, hadvL] at this
    exact this
  have := firstRes_grp F hinner
  simpa using this

/-- On the bare-`ANS` text the ANS loop falls through the two labelled
patterns and stores the digits via the fallback pattern `ansP3`. -/
theorem ansResult_bare {ds : List Char} (hds : ds.all isDig = true)
    (hlen : 5 ≤ ds.length) :
    ansResult ('A' :: 'N' :: 'S' :: ' ' :: ds) = some ds := by
  have e1 : reSearchG1 ansP1 ('A' :: 'N' :: 'S' :: ' ' :: ds) = none :=
    reSearchG1_none (fun s2 pr2 hs => ansP1_fail _ hds s2 pr2 hs)
  have e2 : reSearchG1 ansP2 ('A' :: 'N' :: 'S' :: ' ' :: ds) = none :=
    reSearchG1_none (fun s2 pr2 hs => ansP2_fail _ hds s2 pr2 hs)
  have e3 : reSearchG1 ansP3 ('A' :: 'N' :: 'S' :: ' ' :: ds) = some ds :=
    reSearchG1_of_first (ansP3_first _ hds hlen none)
  rw [ansResult]
  show firstCapture [ansP1, ansP2, ansP3, ansP4] _ = _
  rw [firstCapture, e1, firstCapture, e2, firstCapture, e3]

/-- C5: on a text consisting of the bare fragment `ANS` followed by a
digit run of at least 6 digits (no `Registro ANS` label anywhere), the
extractor still returns the digit run as `1 - Registro ANS`, through the
fallback pattern; and a 4-digit run near `ANS` is rejected, leaving the
field empty. -/
theorem claim_C5 :
    (∀ ds : List Char, ds.all isDig = true → 6 ≤ ds.length →
      (extract_information (some ("ANS ".data ++ ds))).lookup K1 = some ds) ∧
    fieldOf "ANS 1234" K1 = some [] := by
  constructor
  · intro ds hds hlen
    have hne : ds ≠ [] := by intro h; subst h; simp at hlen
    show (extract_information (some ('A' :: 'N' :: 'S' :: ' ' :: ds))).lookup K1 = some ds
    rw [extract_some_eq ('A' :: 'N' :: 'S' :: ' ' :: ds) rfl]
    rw [normalizeText_ANS hds hne, ansResult_bare hds (by omega)]
    simp [List.lookup]
  · decide

/-- C5 witness: the general fallback statement at the claim's concrete
fragment `ANS 123456`. -/
theorem claim_C5_witness :
    (extract_information (some ("ANS ".data ++ "123456".data))).lookup K1 =
      some ("123456".data) :=
  claim_C5.1 ("123456".data) (by decide) (by decide)

/-! ### Soundness of the date captures (membership characterization) -/

theorem mem_mrun_cat {F : Nat} {a b : RE} {st st2 : MSt}
    (h : st2 ∈ mrun F (.cat a b) st) : ∃ m, m ∈ mrun F a st ∧ st2 ∈ mrun F b m := by
  rw [mrun_cat] at h
  obtain ⟨m, hm, h2⟩ := List.mem_flatMap.mp h
  exact ⟨m, hm, h2⟩

theorem mem_mrun_eps {F : Nat} {st st2 : MSt} (h : st2 ∈ mrun F .eps st) : st2 = st := by
  simpa [mrun] using h

theorem mem_mrun_wordB {F : Nat} {st st2 : MSt} (h : st2 ∈ mrun F .wordB st) : st2 = st := by
  by_cases hb : boundaryOk st.prev st.rest.head? <;> simp [mrun, hb] at h <;> try exact h
  
theorem mem_mrun_grp {F : Nat} {r : RE} {st st2 : MSt} (h : st2 ∈ mrun F (.grp r) st) :
    ∃ m ∈ mrun F r st,
      st2 = { m with cap := some (st.rest.take (st.rest.length - m.rest.length)) } := by
  simp only [mrun, List.mem_map] at h
  obtain ⟨m, hm, h2⟩ := h
  exact ⟨m, hm, h2.symm⟩

theorem cls_sound {F : Nat} {p : Char → Bool} {st st2 : MSt}
    (h : st2 ∈ mrun F (.cls p) st) :
    ∃ c, st.rest = c :: st2.rest ∧ p c = true ∧ st2.cap = st.cap := by
  match hr : st.rest with
  | [] => simp [mrun, hr] at h
  | c :: r =>
    by_cases hc : p c
    · simp only [mrun, hr, if_pos hc, List.mem_singleton] at h
      subst h
      exact ⟨c, rfl, hc, rfl⟩
    · simp [mrun, hr, hc] at h

theorem crep_exact_sound {F : Nat} {p : Char → Bool} {n : Nat} {st st2 : MSt}
    (h : st2 ∈ mrun F (.crep p n (some n) false) st) :
    ∃ t, st.rest = t ++ st2.rest ∧ t.all p = true ∧ t.length = n ∧ st2.cap = st.cap := by
  simp only [mrun, List.mem_map] at h
  obtain ⟨k, hk, h2⟩ := h
  simp only [crepKs, Bool.false_eq_true, if_false] at hk
  rw [mem_downFrom] at hk
  have hle : n ≤ countLead p st.rest := by
    rcases Nat.le_total n (countLead p st.rest) with hle | hle
    · exact hle
    · rw [min_eq_right hle] at hk; omega
  have hkn : k = n := by
    rw [min_eq_left hle] at hk; omega
  subst hkn
  subst h2
  have hlen : k ≤ st.rest.length := hle.trans (countLead_le_length st.rest)
  refine ⟨st.rest.take k, ?_, take_all_of_le_countLead k st.rest hle, ?_, stAdvance_cap st k⟩
  · rw [stAdvance_rest, List.take_append_drop]
  · simp [hlen]

theorem length_eq_four {l : List Char} (h : l.length = 4) :
    ∃ a b c d, l = [a, b, c, d] := by
  rcases l with _ | ⟨a, _ | ⟨b, _ | ⟨c, _ | ⟨d, rest⟩⟩⟩⟩ <;> simp at h
  cases rest with
  | nil => exact ⟨a, b, c, d, rfl⟩
  | cons x r => simp at h

/-- Any match of the date group consumes exactly a `DD?MM?YYYY` token and
leaves the capture register alone. -/
theorem dateCore_sound {F : Nat} {st st2 : MSt} (h : st2 ∈ mrun F dateCore st) :
    ∃ d, st.rest = d ++ st2.rest ∧ isDateToken d = true ∧ st2.cap = st.cap := by
  obtain ⟨m1, hm1, h⟩ := mem_mrun_cat h
  obtain ⟨m2, hm2, h⟩ := mem_mrun_cat h
  obtain ⟨m3, hm3, h⟩ := mem_mrun_cat h
  obtain ⟨m4, hm4, h⟩ := mem_mrun_cat h
  obtain ⟨m5, hm5, h⟩ := mem_mrun_cat h
  have h5 := mem_mrun_eps h
  subst h5
  obtain ⟨t1, he1, ha1, hl1, hc1⟩ := crep_exact_sound hm1
  obtain ⟨s1, he2, hs1, hc2⟩ := cls_sound hm2
  obtain ⟨t2, he3, ha2, hl2, hc3⟩ := crep_exact_sound hm3
  obtain ⟨s2, he4, hs2, hc4⟩ := cls_sound hm4
  obtain ⟨t3, he5, ha3, hl3, hc5⟩ := crep_exact_sound hm5
  obtain ⟨a, b, rfl⟩ := List.length_eq_two.mp hl1
  obtain ⟨c, e, rfl⟩ := List.length_eq_two.mp hl2
  obtain ⟨f, g, h2, i, rfl⟩ := length_eq_four hl3
  simp only [List.all_cons, List.all_nil, Bool.and_eq_true] at ha1 ha2 ha3
  refine ⟨[a, b, s1, c, e, s2, f, g, h2, i], ?_, ?_, ?_⟩
  · rw [he1, he2, he3, he4, he5]
    simp
  · simp [isDateToken, ha1.1, ha1.2.1, hs1, ha2.1, ha2.2.1, hs2,
      ha3.1, ha3.2.1, ha3.2.2.1, ha3.2.2.2.1]
  · rw [hc5, hc4, hc3, hc2, hc1]

/-- A match of any chain ending in the date group carries a date-shaped
capture. -/
theorem cap_sound_chain :
    ∀ (L : List RE) (F : Nat) (st st2 : MSt),
      st2 ∈ mrun F (reSeq (L ++ [.grp dateCore])) st →
      ∃ d, isDateToken d = true ∧ st2.cap = some d := by
  intro L
  induction L with
  | nil =>
    intro F st st2 h
    obtain ⟨m, hm, h2⟩ := mem_mrun_cat h
    have h3 := mem_mrun_eps h2
    subst h3
    obtain ⟨m2, hm2, rfl⟩ := mem_mrun_grp hm
    obtain ⟨d, he, hd, _⟩ := dateCore_sound hm2
    refine ⟨d, hd, ?_⟩
    rw [he]
    simp
  | cons x L ih =>
    intro F st st2 h
    obtain ⟨m, _, h2⟩ := mem_mrun_cat h
    exact ih F m st2 h2

/-- A match of the bare-date pattern `\b(D)\b` carries a date-shaped
capture. -/
theorem cap_sound_p6 {F : Nat} {st st2 : MSt} (h : st2 ∈ mrun F dataP6 st) :
    ∃ d, isDateToken d = true ∧ st2.cap = some d := by
  obtain ⟨m1, _, h⟩ := mem_mrun_cat h
  obtain ⟨m2, hm2, h⟩ := mem_mrun_cat h
  obtain ⟨m3, hm3, h3⟩ := mem_mrun_cat h
  have h4 := mem_mrun_wordB hm3
  subst h4
  have h5 := mem_mrun_eps h3
  subst h5
  obtain ⟨m4, hm4, rfl⟩ := mem_mrun_grp hm2
  obtain ⟨d, he, hd, _⟩ := dateCore_sound hm4
  refine ⟨d, hd, ?_⟩
  rw [he]
  simp

/-- Whatever state a successful search returns was produced by the
matcher at some position. -/
theorem searchFrom_sound {F : Nat} {re : RE} :
    ∀ (s : List Char) (pr : Option Char) (st : MSt),
      searchFrom F re s pr = some st →
      ∃ s2 pr2, st ∈ mrun F re ⟨s2, pr2, none⟩ := by
  intro s
  induction s with
  | nil =>
    intro pr st h
    rw [searchFrom] at h
    exact ⟨[], pr, List.mem_of_mem_head? h⟩
  | cons c r ih =>
    intro pr st h
    rw [searchFrom] at h
    cases hh : (mrun F re ⟨c :: r, pr, none⟩).head? with
    | none => rw [hh] at h; exact ih (some c) st h
    | some st3 =>
      rw [hh] at h
      obtain rfl : st3 = st := Option.some_injective _ h
      exact ⟨c :: r, pr, List.mem_of_mem_head? hh⟩

/-- Every capture any date pattern can return is date-shaped. -/
theorem dataCapture_shape {p : RE} (hp : p ∈ data_patterns) {s v : List Char}
    (h : reSearchG1 p s = some v) : isDateToken v = true := by
  rw [reSearchG1] at h
  cases hs : searchFrom (s.length + FUEL) p s none with
  | none => rw [hs] at h; simp at h
  | some st =>
    rw [hs] at h
    obtain ⟨s2, pr2, hmem⟩ := searchFrom_sound s none st hs
    have hcap : ∃ d, isDateToken d = true ∧ st.cap = some d := by
      simp only [data_patterns, List.mem_cons, List.not_mem_nil, or_false] at hp
      rcases hp with rfl | rfl | rfl | rfl | rfl | rfl
      · exact cap_sound_chain [ciChar '4', wsS, .cls isDashCh, wsS, ciStr "Data", wsP,
          ciStr "de", wsP, autorizacao, colS] _ _ _ hmem
      · exact cap_sound_chain [ciStr "Data", wsP, ciStr "de", wsP, autorizacao, colS] _ _ _ hmem
      · exact cap_sound_chain [autorizacao, colS] _ _ _ hmem
      · exact cap_sound_chain [ciStr "data", dotLazyAll, autorizacao, dotLazyAll,
          .crep isColonSp 0 (some 1) false] _ _ _ hmem
      · exact cap_sound_chain [.alt (ciStr "em") (reSeq [ciStr "realizado", dotLazyAll, ciStr "em"]),
          colP] _ _ _ hmem
      · exact cap_sound_p6 hmem
    obtain ⟨d, hd, hc⟩ := hcap
    have h2 : st.cap = some v := h
    rw [hc] at h2
    obtain rfl : d = v := Option.some_injective _ h2
    exact hd

theorem isSepCh_elim {c : Char} (h : isSepCh c = true) : c = '/' ∨ c = '.' ∨ c = '-' := by
  simp only [isSepCh, Bool.or_eq_true, beq_iff_eq] at h
  exact or_assoc.mp h

/-- Destructuring of a date-shaped token into its ten characters. -/
theorem isDateToken_elim {d : List Char} (hd : isDateToken d = true) :
    ∃ a b s1 c e s2 f g h2 i, d = [a, b, s1, c, e, s2, f, g, h2, i] ∧
      isDig a = true ∧ isDig b = true ∧ isSepCh s1 = true ∧ isDig c = true ∧
      isDig e = true ∧ isSepCh s2 = true ∧ isDig f = true ∧ isDig g = true ∧
      isDig h2 = true ∧ isDig i = true := by
  rcases d with _ | ⟨a, d⟩
  · simp [isDateToken] at hd
  rcases d with _ | ⟨b, d⟩
  · simp [isDateToken] at hd
  rcases d with _ | ⟨s1, d⟩
  · simp [isDateToken] at hd
  rcases d with _ | ⟨c, d⟩
  · simp [isDateToken] at hd
  rcases d with _ | ⟨e, d⟩
  · simp [isDateToken] at hd
  rcases d with _ | ⟨s2, d⟩
  · simp [isDateToken] at hd
  rcases d with _ | ⟨f, d⟩
  · simp [isDateToken] at hd
  rcases d with _ | ⟨g, d⟩
  · simp [isDateToken] at hd
  rcases d with _ | ⟨h3, d⟩
  · simp [isDateToken] at hd
  rcases d with _ | ⟨i, d⟩
  · simp [isDateToken] at hd
  rcases d with _ | ⟨x, d⟩
  · simp only [isDateToken, Bool.and_eq_true] at hd
    obtain ⟨⟨⟨⟨⟨⟨⟨⟨⟨h1, h2⟩, h4⟩, h5⟩, h6⟩, h7⟩, h8⟩, h9⟩, h10⟩, h11⟩ := hd
    exact ⟨a, b, s1, c, e, s2, f, g, h3, i, rfl, h1, h2, h4, h5, h6, h7, h8, h9, h10, h11⟩
  · simp [isDateToken] at hd

/-- Normalizing the separators of a date token gives a `/`-separated
date. -/
theorem dateMapSep_shape {d : List Char} (hd : isDateToken d = true) :
    isNormDate (dateMapSep d) = true := by
  obtain ⟨a, b, s1, c, e, s2, f, g, h2, i, rfl, ha, hb, hs1, hc, he, hs2, hf, hg, hh, hi⟩ :=
    isDateToken_elim hd
  have hdig : ∀ x : Char, isDig x = true →
      (if (if x = '.' then '/' else x) = '-' then '/' else if x = '.' then '/' else x) = x := by
    intro x hx
    rcases digit_cases hx with rfl|rfl|rfl|rfl|rfl|rfl|rfl|rfl|rfl|rfl <;> decide
  have hsep : ∀ x : Char, isSepCh x = true →
      (if (if x = '.' then '/' else x) = '-' then '/' else if x = '.' then '/' else x) = '/' := by
    intro x hx
    rcases isSepCh_elim hx with rfl | rfl | rfl <;> decide
  simp only [dateMapSep, List.map_cons, List.map_nil]
  rw [hdig a ha, hdig b hb, hsep s1 hs1, hdig c hc, hdig e he, hsep s2 hs2,
    hdig f hf, hdig g hg, hdig h2 hh, hdig i hi]
  simp [isNormDate, ha, hb, hc, he, hf, hg, hh, hi]

theorem firstCapture_sound : ∀ (ps : List RE) (t w : List Char),
    firstCapture ps t = some w → ∃ p ∈ ps, reSearchG1 p t = some w := by
  intro ps
  induction ps with
  | nil => intro t w h; simp [firstCapture] at h
  | cons p rest ih =>
    intro t w h
    rw [firstCapture] at h
    cases hg : reSearchG1 p t with
    | none =>
      rw [hg] at h
      obtain ⟨q, hq, hw⟩ := ih t w h
      exact ⟨q, List.mem_cons_of_mem p hq, hw⟩
    | some g =>
      rw [hg] at h
      obtain rfl : g = w := Option.some_injective _ h
      exact ⟨p, List.mem_cons_self p rest, hg⟩

/-- Every stored authorization date is a `DD/MM/YYYY`-shaped string with
both separators already normalized to `/`. -/
theorem dataResult_shape : ∀ t v : List Char, dataResult t = some v → isNormDate v = true := by
  intro t v h
  rw [dataResult] at h
  cases hf : firstCapture data_patterns t with
  | none => rw [hf] at h; simp at h
  | some w =>
    rw [hf] at h
    obtain rfl : dateMapSep w = v := by simpa using h
    obtain ⟨p, hp, hw⟩ := firstCapture_sound data_patterns t w hf
    exact dateMapSep_shape (dataCapture_shape hp hw)

/-- C8: a captured authorization date always has the `DD?MM?YYYY` group
shape with separators `/`, `-` or `.`, and the stored value has both
separators normalized to `/` — in particular `Autorização: 05-03-2024`
yields `05/03/2024`. -/
theorem claim_C8 :
    fieldOf "Autorização: 05-03-2024" K3 = some ("05/03/2024".data) ∧
    (∀ t v, dataResult t = some v → isNormDate v = true) :=
  ⟨by decide, dataResult_shape⟩

/-- C8 witness: the shape statement applied at the claim's concrete
input. -/
theorem claim_C8_witness : isNormDate ("05/03/2024".data) = true :=
  claim_C8.2 (normalizeText "Autorização: 05-03-2024".data) ("05/03/2024".data) (by decide)

/-! ### Normalization around a space-free infix (for the bare-date claim) -/

theorem collapsePairs_cons (a : Char) (l : List Char)
    (h : a = ' ' → ∀ c, l.head? = some c → c ≠ ' ') :
    collapsePairs (a :: l) = a :: collapsePairs l := by
  cases l with
  | nil => rfl
  | cons b r => rw [collapsePairs, if_neg (fun hab => h hab.1 b rfl hab.2)]

theorem collapsePairs_front :
    ∀ (d y : List Char), (∀ c ∈ d, c ≠ ' ') → collapsePairs (d ++ y) = d ++ collapsePairs y
  | [], _, _ => rfl
  | d0 :: d2, y, h => by
    rw [List.cons_append,
      collapsePairs_cons d0 (d2 ++ y) (fun hd0 => absurd hd0 (h d0 (by simp))),
      collapsePairs_front d2 y (fun c hc => h c (List.mem_cons_of_mem d0 hc)),
      List.cons_append]

theorem collapsePairs_append3 :
    ∀ (x d y : List Char), d ≠ [] → (∀ c ∈ d, c ≠ ' ') →
      collapsePairs (x ++ d ++ y) = collapsePairs x ++ d ++ collapsePairs y
  | [], d, y, _, hd => by
    rw [List.nil_append, collapsePairs_front d y hd]
    rfl
  | [a], d, y, hne, hd => by
    cases d with
    | nil => exact absurd rfl hne
    | cons d0 d2 =>
      show collapsePairs (a :: ((d0 :: d2) ++ y)) =
        collapsePairs [a] ++ (d0 :: d2) ++ collapsePairs y
      rw [collapsePairs_cons a ((d0 :: d2) ++ y) (fun _ c hc => by
          rw [List.cons_append, List.head?_cons] at hc
          obtain rfl : d0 = c := Option.some_injective _ hc
          exact hd d0 (by simp)),
        collapsePairs_front (d0 :: d2) y hd]
      rfl
  | a :: b :: x2, d, y, hne, hd => by
    by_cases hab : a = ' ' ∧ b = ' '
    · have hL : collapsePairs (a :: b :: (x2 ++ d ++ y)) =
          ' ' :: collapsePairs (x2 ++ d ++ y) := by
        rw [collapsePairs, if_pos hab]
      have hR : collapsePairs (a :: b :: x2) = ' ' :: collapsePairs x2 := by
        rw [collapsePairs, if_pos hab]
      show collapsePairs (a :: b :: (x2 ++ d ++ y)) =
        collapsePairs (a :: b :: x2) ++ d ++ collapsePairs y
      rw [hL, hR, collapsePairs_append3 x2 d y hne hd]
      rfl
    · have hbn : a = ' ' → b ≠ ' ' := fun ha hb => hab ⟨ha, hb⟩
      have hL : collapsePairs (a :: (b :: (x2 ++ d ++ y))) =
          a :: collapsePairs (b :: (x2 ++ d ++ y)) :=
        collapsePairs_cons a _ (fun ha c hc => by
          obtain rfl : b = c := Option.some_injective _ hc
          exact hbn ha)
      have hR : collapsePairs (a :: b :: x2) = a :: collapsePairs (b :: x2) :=
        collapsePairs_cons a _ (fun ha c hc => by
          obtain rfl : b = c := Option.some_injective _ hc
          exact hbn ha)
      show collapsePairs (a :: b :: (x2 ++ d ++ y)) =
        collapsePairs (a :: b :: x2) ++ d ++ collapsePairs y
      rw [hL, hR]
      exact congrArg (fun t => a :: t) (collapsePairs_append3 (b :: x2) d y hne hd)

theorem getLast?_cons_ne_nil (a : Char) (l : List Char) (h : l ≠ []) :
    (a :: l).getLast? = l.getLast? := by
  cases l with
  | nil => exact absurd rfl h
  | cons b r => exact List.getLast?_cons_cons

theorem getLast?_collapsePairs : ∀ l : List Char, (collapsePairs l).getLast? = l.getLast?
  | [] => rfl
  | [c] => rfl
  | a :: b :: r => by
    by_cases hab : a = ' ' ∧ b = ' '
    · rw [collapsePairs, if_pos hab]
      cases r with
      | nil => rw [hab.1, hab.2]; rfl
      | cons r0 r2 =>
        rw [getLast?_cons_ne_nil ' ' (collapsePairs (r0 :: r2))
            (collapsePairs_ne_nil (r0 :: r2) (by simp)),
          getLast?_collapsePairs (r0 :: r2),
          getLast?_cons_ne_nil a (b :: r0 :: r2) (by simp),
          getLast?_cons_ne_nil b (r0 :: r2) (by simp)]
    · rw [collapsePairs, if_neg hab,
        getLast?_cons_ne_nil a (collapsePairs (b :: r))
          (collapsePairs_ne_nil (b :: r) (by simp)),
        getLast?_collapsePairs (b :: r),
        getLast?_cons_ne_nil a (b :: r) (by simp)]

theorem head?_collapsePairs : ∀ l : List Char, (collapsePairs l).head? = l.head?
  | [] => rfl
  | [c] => rfl
  | a :: b :: r => by
    by_cases hab : a = ' ' ∧ b = ' '
    · rw [collapsePairs, if_pos hab, hab.1]; rfl
    · rw [collapsePairs, if_neg hab]; rfl

/-- Characters of a date token are never spaces or newlines. -/
theorem dateToken_chars {d : List Char} (hd : isDateToken d = true) :
    ∀ c ∈ d, c ≠ ' ' ∧ c ≠ '\n' := by
  obtain ⟨a, b, s1, c, e, s2, f, g, h2, i, rfl, ha, hb, hs1, hc, he, hs2, hf, hg, hh, hi⟩ :=
    isDateToken_elim hd
  have hsep : ∀ x : Char, isSepCh x = true → x ≠ ' ' ∧ x ≠ '\n' := by
    intro x hx
    rcases isSepCh_elim hx with rfl | rfl | rfl <;> exact ⟨by decide, by decide⟩
  have hdig : ∀ x : Char, isDig x = true → x ≠ ' ' ∧ x ≠ '\n' := fun x hx =>
    ⟨digit_ne_space hx, digit_ne_nl hx⟩
  intro x hx
  simp only [List.mem_cons, List.not_mem_nil, or_false] at hx
  rcases hx with rfl | rfl | rfl | rfl | rfl | rfl | rfl | rfl | rfl | rfl
  · exact hdig x ha
  · exact hdig x hb
  · exact hsep x hs1
  · exact hdig x hc
  · exact hdig x he
  · exact hsep x hs2
  · exact hdig x hf
  · exact hdig x hg
  · exact hdig x hh
  · exact hdig x hi

/-- Normalization distributes around a date token. -/
theorem normalizeText_split {u d v : List Char} (hd : isDateToken d = true) :
    normalizeText (u ++ d ++ v) = normalizeText u ++ d ++ normalizeText v := by
  have hne : d ≠ [] := by
    intro h
    rw [h] at hd
    simp [isDateToken] at hd
  have hch := dateToken_chars hd
  rw [normalizeText, replaceNl, List.map_append, List.map_append]
  rw [show (d.map fun c => if c = '\n' then ' ' else c) = replaceNl d from rfl,
    replaceNl_eq_self (fun c hc => (hch c hc).2)]
  rw [collapsePairs_append3 _ d _ hne (fun c hc => (hch c hc).1)]
  rfl

/-! ### Word-boundary preservation through normalization -/

theorem digit_isWordC {d : Char} (h : isDig d = true) : isWordC d = true := by
  rcases digit_cases h with rfl|rfl|rfl|rfl|rfl|rfl|rfl|rfl|rfl|rfl <;> decide

/-- Normalization maps the last character through `'\n' ↦ ' '`, so a
non-word last character stays non-word. -/
theorem nonWordLastOk_normalize {u : List Char} (h : nonWordLastOk u = true) :
    nonWordLastOk (normalizeText u) = true := by
  rw [nonWordLastOk, normalizeText, getLast?_collapsePairs, replaceNl, List.getLast?_map]
  rw [nonWordLastOk] at h
  cases hl : u.getLast? with
  | none => rfl
  | some c =>
    rw [hl] at h
    have hcw : isWordC c = false := by simpa using h
    show (!isWordC (if c = '\n' then ' ' else c)) = true
    by_cases hc : c = '\n'
    · subst hc; decide
    · rw [if_neg hc, hcw]; rfl

/-- Normalization maps the first character through `'\n' ↦ ' '`, so a
non-word first character stays non-word. -/
theorem nonWordHeadOk_normalize {v : List Char} (h : nonWordHeadOk v = true) :
    nonWordHeadOk (normalizeText v) = true := by
  rw [nonWordHeadOk, normalizeText, head?_collapsePairs, replaceNl, List.head?_map]
  rw [nonWordHeadOk] at h
  cases hl : v.head? with
  | none => rfl
  | some c =>
    rw [hl] at h
    have hcw : isWordC c = false := by simpa using h
    show (!isWordC (if c = '\n' then ' ' else c)) = true
    by_cases hc : c = '\n'
    · subst hc; decide
    · rw [if_neg hc, hcw]; rfl

/-! ### A constructive match of the bare-date pattern -/

theorem downFrom_nil {lo t : Nat} (h : t < lo) : downFrom lo t = [] := by
  cases t with
  | zero => rw [downFrom, if_neg (by omega)]
  | succ t => rw [downFrom, if_pos h]

theorem downFrom_self (n : Nat) : downFrom n n = [n] := by
  cases n with
  | zero => rfl
  | succ t => rw [downFrom, if_neg (by omega), downFrom_nil (by omega)]

/-- An exactly-`n` class repetition on input with at least `n` leading
matching characters has the single result that consumes them. -/
theorem firstRes_crep_exact (F : Nat) (p : Char → Bool) (n : Nat) (st : MSt)
    (h : n ≤ countLead p st.rest) :
    ∃ t, mrun F (.crep p n (some n) false) st = stAdvance st n :: t := by
  refine ⟨[], ?_⟩
  show (crepKs n (some n) false (countLead p st.rest)).map (stAdvance st) = [stAdvance st n]
  simp only [crepKs, Bool.false_eq_true, if_false]
  rw [min_eq_left h, downFrom_self]
  rfl

theorem firstRes_wordB {F : Nat} {st : MSt}
    (h : boundaryOk st.prev st.rest.head? = true) :
    ∃ t, mrun F .wordB st = st :: t :=
  ⟨[], by simp [mrun, h]⟩

/-- The date group matches (first, deterministically) at the head of any
input that starts with a date token, consuming exactly the token. -/
theorem dateCore_first (F : Nat) (a b s1 c e s2 f g h2 i : Char) (w : List Char)
    (pr : Option Char) (cap : Option (List Char))
    (ha : isDig a = true) (hb : isDig b = true) (hs1 : isSepCh s1 = true)
    (hc : isDig c = true) (he : isDig e = true) (hs2 : isSepCh s2 = true)
    (hf : isDig f = true) (hg : isDig g = true) (hh : isDig h2 = true)
    (hi : isDig i = true) :
    ∃ t, mrun F dateCore ⟨a :: b :: s1 :: c :: e :: s2 :: f :: g :: h2 :: i :: w, pr, cap⟩ =
      (⟨w, some i, cap⟩ : MSt) :: t := by
  show ∃ t, mrun F (.cat (digN 2) (.cat (.cls isSepCh) (.cat (digN 2) (.cat (.cls isSepCh)
    (.cat (digN 4) .eps)))))
      ⟨a :: b :: s1 :: c :: e :: s2 :: f :: g :: h2 :: i :: w, pr, cap⟩ =
    (⟨w, some i, cap⟩ : MSt) :: t
  refine firstRes_cat (⟨s1 :: c :: e :: s2 :: f :: g :: h2 :: i :: w, some b, cap⟩ : MSt) ?_ ?_
  · exact firstRes_crep_exact F isDig 2 _
      (by rw [countLead_cons_pos _ ha, countLead_cons_pos _ hb]; omega)
  refine firstRes_cat (⟨c :: e :: s2 :: f :: g :: h2 :: i :: w, some s1, cap⟩ : MSt) ?_ ?_
  · exact firstRes_cls hs1
  refine firstRes_cat (⟨s2 :: f :: g :: h2 :: i :: w, some e, cap⟩ : MSt) ?_ ?_
  · exact firstRes_crep_exact F isDig 2 _
      (by rw [countLead_cons_pos _ hc, countLead_cons_pos _ he]; omega)
  refine firstRes_cat (⟨f :: g :: h2 :: i :: w, some s2, cap⟩ : MSt) ?_ ?_
  · exact firstRes_cls hs2
  refine firstRes_cat (⟨w, some i, cap⟩ : MSt) ?_ firstRes_eps
  exact firstRes_crep_exact F isDig 4 _
    (by rw [countLead_cons_pos _ hf, countLead_cons_pos _ hg,
          countLead_cons_pos _ hh, countLead_cons_pos _ hi]; omega)

/-- The bare-date pattern `\b(\d{2}[/.\-]\d{2}[/.\-]\d{4})\b` matches at
the start of `d ++ w` when `d` is a date token, the previous character is
not a word character, and `w` does not start with one; the match captures
exactly `d`. -/
theorem dataP6_first (F : Nat) (d w : List Char) (pr : Option Char)
    (hd : isDateToken d = true)
    (hpr : ∀ c, pr = some c → isWordC c = false)
    (hw : nonWordHeadOk w = true) :
    ∃ st2 t, mrun F dataP6 ⟨d ++ w, pr, none⟩ = st2 :: t ∧ st2.cap = some d := by
  obtain ⟨a, b, s1, c, e, s2, f, g, h2, i, rfl, ha, hb, hs1, hc, he, hs2, hf, hg, hh, hi⟩ :=
    isDateToken_elim hd
  have hb1 : boundaryOk pr
      ((a :: b :: s1 :: c :: e :: s2 :: f :: g :: h2 :: i :: w).head?) = true := by
    rw [boundaryOk.eq_def]
    cases pr with
    | none => simp [digit_isWordC ha]
    | some pc => simp [hpr pc rfl, digit_isWordC ha]
  have hb2 : boundaryOk (some i) w.head? = true := by
    rw [boundaryOk.eq_def]
    cases hw2 : w.head? with
    | none => simp [digit_isWordC hi]
    | some c0 =>
      rw [nonWordHeadOk, hw2] at hw
      have : isWordC c0 = false := by simpa using hw
      simp [this, digit_isWordC hi]
  have hgrp : ∃ t, mrun F (.grp dateCore)
      ⟨a :: b :: s1 :: c :: e :: s2 :: f :: g :: h2 :: i :: w, pr, none⟩ =
      (⟨w, some i, some [a, b, s1, c, e, s2, f, g, h2, i]⟩ : MSt) :: t := by
    have hdc := dateCore_first F a b s1 c e s2 f g h2 i w pr none
      ha hb hs1 hc he hs2 hf hg hh hi
    have hgr := firstRes_grp F hdc
    have hlen : (a :: b :: s1 :: c :: e :: s2 :: f :: g :: h2 :: i :: w).length - w.length
        = 10 := by simp only [List.length_cons]; omega
    rw [show (⟨a :: b :: s1 :: c :: e :: s2 :: f :: g :: h2 :: i :: w, pr, none⟩ : MSt).rest
        = a :: b :: s1 :: c :: e :: s2 :: f :: g :: h2 :: i :: w from rfl] at hgr
    rw [show (⟨w, some i, (none : Option (List Char))⟩ : MSt).rest = w from rfl] at hgr
    rw [hlen] at hgr
    exact hgr
  refine ⟨⟨w, some i, some [a, b, s1, c, e, s2, f, g, h2, i]⟩, ?_⟩
  have hch : ∃ t, mrun F (.cat .wordB (.cat (.grp dateCore) (.cat .wordB .eps)))
      ⟨a :: b :: s1 :: c :: e :: s2 :: f :: g :: h2 :: i :: w, pr, none⟩ =
      (⟨w, some i, some [a, b, s1, c, e, s2, f, g, h2, i]⟩ : MSt) :: t := by
    refine firstRes_cat
      (⟨a :: b :: s1 :: c :: e :: s2 :: f :: g :: h2 :: i :: w, pr, none⟩ : MSt)
      (firstRes_wordB hb1) ?_
    refine firstRes_cat (⟨w, some i, some [a, b, s1, c, e, s2, f, g, h2, i]⟩ : MSt) hgrp ?_
    exact firstRes_cat (⟨w, some i, some [a, b, s1, c, e, s2, f, g, h2, i]⟩ : MSt)
      (firstRes_wordB hb2) firstRes_eps
  obtain ⟨t, ht⟩ := hch
  exact ⟨t, ht, rfl⟩

/-! ### From a bare-date match to the stored field -/

theorem firstCapture_ne_none : ∀ (ps : List RE) (p : RE) (t w : List Char),
    p ∈ ps → reSearchG1 p t = some w → firstCapture ps t ≠ none
  | [], p, t, w, hp, _ => by simp at hp
  | q :: rest, p, t, w, hp, h => by
    rw [firstCapture]
    cases hq : reSearchG1 q t with
    | some g => simp
    | none =>
      rcases List.mem_cons.mp hp with rfl | hp2
      · rw [hq] at h; simp at h
      · exact firstCapture_ne_none rest p t w hp2 h

theorem isNormDate_ne_nil {w : List Char} (h : isNormDate w = true) : w ≠ [] := by
  intro hw
  rw [hw] at h
  simp [isNormDate] at h

/-- On any text of the form `u ++ d ++ v` with `d` a standalone date
token, the date loop stores a (normalized, hence non-empty) date. -/
theorem dataResult_bare (u d v : List Char) (hd : isDateToken d = true)
    (hu : nonWordLastOk u = true) (hv : nonWordHeadOk v = true) :
    ∃ w, dataResult (normalizeText (u ++ d ++ v)) = some w ∧ isNormDate w = true := by
  have hsplit : normalizeText (u ++ d ++ v) =
      normalizeText u ++ d ++ normalizeText v := normalizeText_split hd
  have hm : mrun ((normalizeText (u ++ d ++ v)).length + FUEL) dataP6
      ⟨d ++ normalizeText v, ((normalizeText u).getLast?).or none, none⟩ ≠ [] := by
    have hpr : ∀ c, ((normalizeText u).getLast?).or none = some c → isWordC c = false := by
      intro c0 hc0
      rw [Option.or_none] at hc0
      have h2 := nonWordLastOk_normalize hu
      rw [nonWordLastOk, hc0] at h2
      simpa using h2
    obtain ⟨st2, t, he, _⟩ := dataP6_first ((normalizeText (u ++ d ++ v)).length + FUEL)
      d (normalizeText v) (((normalizeText u).getLast?).or none) hd hpr
      (nonWordHeadOk_normalize hv)
    rw [he]
    simp
  have hsf : searchFrom ((normalizeText (u ++ d ++ v)).length + FUEL) dataP6
      (normalizeText (u ++ d ++ v)) none ≠ none := by
    rw [hsplit, List.append_assoc]
    exact searchFrom_ne_none _ dataP6 (normalizeText u) (d ++ normalizeText v) none hm
  have hg1 : ∃ w, reSearchG1 dataP6 (normalizeText (u ++ d ++ v)) = some w ∧
      isDateToken w = true := by
    rw [reSearchG1]
    cases hs : searchFrom ((normalizeText (u ++ d ++ v)).length + FUEL) dataP6
        (normalizeText (u ++ d ++ v)) none with
    | none => exact absurd hs hsf
    | some st =>
      obtain ⟨s2, pr2, hmem⟩ := searchFrom_sound (normalizeText (u ++ d ++ v)) none st hs
      obtain ⟨d2, hd2, hcap⟩ := cap_sound_p6 hmem
      exact ⟨d2, hcap, hd2⟩
  obtain ⟨w0, hw0, _⟩ := hg1
  have hfc : firstCapture data_patterns (normalizeText (u ++ d ++ v)) ≠ none :=
    firstCapture_ne_none data_patterns dataP6 (normalizeText (u ++ d ++ v)) w0
      (by simp [data_patterns]) hw0
  cases hf : firstCapture data_patterns (normalizeText (u ++ d ++ v)) with
  | none => exact absurd hf hfc
  | some g =>
    have hres : dataResult (normalizeText (u ++ d ++ v)) = some (dateMapSep g) := by
      rw [dataResult, hf]
      rfl
    exact ⟨dateMapSep g, hres,
      dataResult_shape (normalizeText (u ++ d ++ v)) (dateMapSep g) hres⟩

theorem lookup_K3 (x1 x2 x3 x4 x5 : List Char) :
    List.lookup K3 [(K1, x1), (K2, x2), (K3, x3), (K4, x4), (K5, x5)] = some x3 := rfl

/-- C10: every input containing a standalone `\d{2}[/.\-]\d{2}[/.\-]\d{4}`
token (neighbouring characters, if any, not word characters) gets a
non-empty `4 - Data de Autorização` field: the bare-date fallback pattern
matches without any authorization label. -/
theorem claim_C10 (u d v : List Char)
    (hd : isDateToken d = true) (hu : nonWordLastOk u = true)
    (hv : nonWordHeadOk v = true) :
    ∃ w, (extract_information (some (u ++ d ++ v))).lookup K3 = some w ∧ w ≠ [] := by
  obtain ⟨w, hw, hnd⟩ := dataResult_bare u d v hd hu hv
  have hne : (u ++ d ++ v).isEmpty = false := by
    cases hdn : d with
    | nil => rw [hdn] at hd; simp [isDateToken] at hd
    | cons d0 d2 => cases u <;> rfl
  refine ⟨w, ?_, isNormDate_ne_nil hnd⟩
  rw [extract_some_eq _ hne, lookup_K3, hw]
  rfl

/-- C10 witness: the standalone token `12/03/2024` inside `x 12/03/2024 y`
is stored (non-empty). -/
theorem claim_C10_witness :
    ∃ w, (extract_information (some ("x ".data ++ "12/03/2024".data ++ " y".data))).lookup K3 =
      some w ∧ w ≠ [] :=
  claim_C10 ("x ".data) ("12/03/2024".data) (" y".data) (by decide) (by decide) (by decide)
